import Mathlib

/-!
Formal model of the HR attrition dashboard's analytics engine
(`src/app.py`): dataset loading and CSV export, defensive derivation of
the attrition flag and the age bucket, KPI aggregation, risk grouping
by categorical dimensions, and the predictor's feature selection and
split policy.

Modelling conventions:
* a `pandas.DataFrame` is a `Table`: a list of column names plus rows of
  cells aligned positionally with the columns;
* a cell is an integer, a string, or missing (`NaN`); numeric data is
  modelled over `Int` (the engine's numeric columns hold integers);
* library behaviour (`pd.read_csv`, `DataFrame.to_csv`, `pd.cut`,
  `groupby(...).agg`, `idxmax`) is embedded by functions mirroring the
  documented semantics pandas applies to the calls in `src/app.py`,
  including per-column type inference on load, the default NA markers,
  blank-line skipping, and sorted group keys with first-occurrence
  `idxmax`.
-/

/-- A cell of an in-memory table: an integer, a string, or missing
(pandas `NaN`). -/
inductive Value where
  | vInt : Int → Value
  | vStr : String → Value
  | vNone : Value
deriving DecidableEq

/-- An in-memory table (models a `pandas.DataFrame`): column names and
rows of cells, each row aligned positionally with `cols`. -/
structure Table where
  cols : List String
  rows : List (List Value)
deriving DecidableEq

/-- Position of the first column with the given name. -/
def colIdx : List String → String → Option Nat
  | [], _ => none
  | c :: cs, d => if c = d then some 0 else (colIdx cs d).map (· + 1)

/-- `c in df.columns`. -/
def Table.hasCol (t : Table) (c : String) : Bool := (colIdx t.cols c).isSome

/-- Cell of row `r` at column position `i` (missing when out of range). -/
def cellAt (r : List Value) (i : Nat) : Value := r.getD i .vNone

/-- `df[c]`: the named column as a list of cells (empty when absent). -/
def Table.getCol (t : Table) (c : String) : List Value :=
  match colIdx t.cols c with
  | some i => t.rows.map (fun r => cellAt r i)
  | none => []

/-- `df[c] = vs`: overwrite column `c` in place when present, else
append it on the right (pandas column assignment). -/
def Table.setCol (t : Table) (c : String) (vs : List Value) : Table :=
  match colIdx t.cols c with
  | some i => ⟨t.cols, (t.rows.zip vs).map (fun p => p.1.set i p.2)⟩
  | none => ⟨t.cols ++ [c], (t.rows.zip vs).map (fun p => p.1 ++ [p.2])⟩

/-- Well-formed table: every row has exactly one cell per column. -/
def Table.WF (t : Table) : Prop := ∀ r ∈ t.rows, r.length = t.cols.length

instance (t : Table) : Decidable t.WF := by
  unfold Table.WF
  infer_instance

/-! ### Character-level string helpers

Python's `str.strip` / `str.lower` and the textual integer format are
modelled over `List Char` so that everything evaluates inside the
kernel. -/

/-- Python whitespace as stripped by `str.strip()`. -/
def isWS (c : Char) : Bool :=
  c = ' ' || c = '\t' || c = '\n' || c = '\r' || c = '\x0b' || c = '\x0c'

/-- Drop trailing characters satisfying `p`. -/
def dropTrail (p : Char → Bool) (cs : List Char) : List Char :=
  (cs.reverse.dropWhile p).reverse

/-- `str.strip()` on a character list. -/
def trimChars (cs : List Char) : List Char := dropTrail isWS (cs.dropWhile isWS)

/-- `str.strip()`. -/
def strTrim (s : String) : String := ⟨trimChars s.data⟩

/-- ASCII `str.lower()` on one character. -/
def lowerChar (c : Char) : Char :=
  if 'A' ≤ c ∧ c ≤ 'Z' then Char.ofNat (c.toNat + 32) else c

/-- `str(x).strip().lower()`, the normalisation applied to raw
attrition cells on line 78 of `src/app.py`. -/
def normStr (s : String) : String := ⟨(trimChars s.data).map lowerChar⟩

/-- Numeric value of a decimal digit character. -/
def digitVal (c : Char) : Option Nat :=
  if c = '0' then some 0 else if c = '1' then some 1 else if c = '2' then some 2
  else if c = '3' then some 3 else if c = '4' then some 4 else if c = '5' then some 5
  else if c = '6' then some 6 else if c = '7' then some 7 else if c = '8' then some 8
  else if c = '9' then some 9 else none

/-- Decimal digit character of a value below ten. -/
def digitChar (d : Nat) : Char :=
  if d = 0 then '0' else if d = 1 then '1' else if d = 2 then '2' else if d = 3 then '3'
  else if d = 4 then '4' else if d = 5 then '5' else if d = 6 then '6' else if d = 7 then '7'
  else if d = 8 then '8' else '9'

/-- Digits of a character list, `none` as soon as one is not a digit. -/
def digitsOfChars? : List Char → Option (List Nat)
  | [] => some []
  | c :: cs =>
    match digitVal c, digitsOfChars? cs with
    | some d, some ds => some (d :: ds)
    | _, _ => none

/-- Parse an unsigned decimal literal (at least one digit). -/
def natOfChars? (cs : List Char) : Option Nat :=
  match digitsOfChars? cs with
  | some ds => if cs.isEmpty then none else some (ds.foldl (fun a d => 10 * a + d) 0)
  | none => none

/-- Parse an optionally `-`-signed decimal integer literal. -/
def intOfChars? (cs : List Char) : Option Int :=
  if cs.head? = some '-' then (natOfChars? cs.tail).map (fun n => -(Int.ofNat n))
  else (natOfChars? cs).map (fun n => Int.ofNat n)

/-- Decimal rendering of a natural number. -/
def natToChars (n : Nat) : List Char :=
  if n = 0 then ['0'] else ((Nat.digits 10 n).reverse).map digitChar

/-- `str(n)` for an integer, as written by `DataFrame.to_csv`. -/
def intToString (n : Int) : String :=
  if n < 0 then ⟨'-' :: natToChars n.natAbs⟩ else ⟨natToChars n.natAbs⟩

theorem digitVal_digitChar {d : Nat} (h : d < 10) : digitVal (digitChar d) = some d := by
  interval_cases d <;> rfl

theorem digitChar_not_ws (d : Nat) : isWS (digitChar d) = false := by
  unfold digitChar
  split_ifs <;> rfl

theorem digitChar_ne_dash (d : Nat) : digitChar d ≠ '-' := by
  unfold digitChar
  split_ifs <;> decide

theorem digitsOfChars_map_digitChar {ds : List Nat} (h : ∀ d ∈ ds, d < 10) :
    digitsOfChars? (ds.map digitChar) = some ds := by
  induction ds with
  | nil => rfl
  | cons d ds ih =>
    have hd : d < 10 := h d (List.mem_cons_self d ds)
    have hds : ∀ x ∈ ds, x < 10 := fun x hx => h x (List.mem_cons_of_mem d hx)
    simp only [List.map_cons, digitsOfChars?, digitVal_digitChar hd, ih hds]

theorem foldl_horner (ds : List Nat) (a : Nat) :
    ds.reverse.foldl (fun x d => 10 * x + d) a = a * 10 ^ ds.length + Nat.ofDigits 10 ds := by
  induction ds generalizing a with
  | nil => simp [Nat.ofDigits]
  | cons d ds ih =>
    rw [List.reverse_cons, List.foldl_append, ih]
    simp only [List.foldl_cons, List.foldl_nil, Nat.ofDigits_cons, List.length_cons]
    ring

theorem natOfChars_natToChars (n : Nat) : natOfChars? (natToChars n) = some n := by
  by_cases h0 : n = 0
  · subst h0; decide
  · have hne : Nat.digits 10 n ≠ [] := Nat.digits_ne_nil_iff_ne_zero.mpr h0
    have hlt : ∀ d ∈ Nat.digits 10 n, d < 10 := fun d hd =>
      Nat.digits_lt_base (by norm_num) hd
    have hlt' : ∀ d ∈ (Nat.digits 10 n).reverse, d < 10 := fun d hd =>
      hlt d (List.mem_reverse.mp hd)
    unfold natToChars
    rw [if_neg h0]
    unfold natOfChars?
    rw [digitsOfChars_map_digitChar hlt']
    have hize : ((Nat.digits 10 n).reverse.map digitChar).isEmpty = false := by
      simp [List.isEmpty_iff, hne]
    simp only [hize, Bool.false_eq_true, if_false]
    rw [foldl_horner (Nat.digits 10 n) 0]
    simp [Nat.ofDigits_digits]

theorem natToChars_ne_nil (n : Nat) : natToChars n ≠ [] := by
  unfold natToChars
  split_ifs with h
  · simp
  · intro hc
    have hne : Nat.digits 10 n ≠ [] := Nat.digits_ne_nil_iff_ne_zero.mpr h
    simp at hc
    exact hne hc

theorem natToChars_no_dash (n : Nat) : ∀ c ∈ natToChars n, c ≠ '-' := by
  intro c hc
  unfold natToChars at hc
  split_ifs at hc with h
  · simp at hc; subst hc; decide
  · simp only [List.mem_map] at hc
    obtain ⟨d, _, rd⟩ := hc
    subst rd
    exact digitChar_ne_dash d

theorem natToChars_no_ws (n : Nat) : ∀ c ∈ natToChars n, isWS c = false := by
  intro c hc
  unfold natToChars at hc
  split_ifs at hc with h
  · simp at hc; subst hc; rfl
  · simp only [List.mem_map] at hc
    obtain ⟨d, _, rd⟩ := hc
    subst rd
    exact digitChar_not_ws d

theorem intOfChars_intToString (n : Int) : intOfChars? (intToString n).data = some n := by
  by_cases hneg : n < 0
  · unfold intToString
    rw [if_pos hneg]
    show intOfChars? ('-' :: natToChars n.natAbs) = some n
    unfold intOfChars?
    have hcond : ('-' :: natToChars n.natAbs).head? = some '-' := rfl
    rw [if_pos hcond, List.tail_cons, natOfChars_natToChars]
    simp only [Option.map_some', Option.some.injEq, Int.ofNat_eq_coe]
    omega
  · unfold intToString
    rw [if_neg hneg]
    show intOfChars? (natToChars n.natAbs) = some n
    unfold intOfChars?
    have hcond : ¬ (natToChars n.natAbs).head? = some '-' := by
      intro hh
      obtain ⟨c, cs, hcs⟩ : ∃ c cs, natToChars n.natAbs = c :: cs := by
        cases hx : natToChars n.natAbs with
        | nil => exact absurd hx (natToChars_ne_nil _)
        | cons c cs => exact ⟨c, cs, rfl⟩
      rw [hcs] at hh
      simp only [List.head?_cons, Option.some.injEq] at hh
      exact natToChars_no_dash n.natAbs c (hcs ▸ List.mem_cons_self c cs) hh
    rw [if_neg hcond, natOfChars_natToChars]
    simp only [Option.map_some', Option.some.injEq, Int.ofNat_eq_coe]
    omega

/-! ### Table lemmas -/

theorem colIdx_lt_length {cols : List String} {c : String} {i : Nat}
    (h : colIdx cols c = some i) : i < cols.length := by
  induction cols generalizing i with
  | nil => simp [colIdx] at h
  | cons x xs ih =>
    by_cases hx : x = c
    · simp only [colIdx, if_pos hx, Option.some.injEq] at h
      subst h
      simp
    · simp only [colIdx, if_neg hx, Option.map_eq_some'] at h
      obtain ⟨j, hj, rfl⟩ := h
      have := ih hj
      simp only [List.length_cons]
      omega

theorem colIdx_getD {cols : List String} {c : String} {i : Nat}
    (h : colIdx cols c = some i) : cols.getD i "" = c := by
  induction cols generalizing i with
  | nil => simp [colIdx] at h
  | cons x xs ih =>
    by_cases hx : x = c
    · simp [colIdx, hx] at h
      subst h
      simpa using hx
    · simp only [colIdx, if_neg hx, Option.map_eq_some'] at h
      obtain ⟨j, hj, rfl⟩ := h
      simpa [List.getD_cons_succ] using ih hj

theorem colIdx_ne {cols : List String} {c d : String} {i j : Nat}
    (hc : colIdx cols c = some i) (hd : colIdx cols d = some j) (hne : c ≠ d) : i ≠ j := by
  intro he
  subst he
  exact hne (by rw [← colIdx_getD hc, colIdx_getD hd])

theorem colIdx_append_self {cols : List String} {c : String}
    (h : colIdx cols c = none) : colIdx (cols ++ [c]) c = some cols.length := by
  induction cols with
  | nil => simp [colIdx]
  | cons x xs ih =>
    by_cases hx : x = c
    · simp [colIdx, hx] at h
    · simp only [colIdx, if_neg hx, Option.map_eq_none'] at h
      simp only [List.cons_append, colIdx, if_neg hx, List.append_eq, ih h, Option.map_some']
      simp

theorem colIdx_append_of_some {cols cs2 : List String} {d : String} {i : Nat}
    (h : colIdx cols d = some i) : colIdx (cols ++ cs2) d = some i := by
  induction cols generalizing i with
  | nil => simp [colIdx] at h
  | cons x xs ih =>
    by_cases hx : x = d
    · simp [colIdx, hx] at h ⊢
      omega
    · simp only [colIdx, if_neg hx, Option.map_eq_some'] at h
      obtain ⟨j, hj, rfl⟩ := h
      simp only [List.cons_append, colIdx, if_neg hx, List.append_eq, ih hj, Option.map_some']

theorem colIdx_append_none {cols : List String} {c d : String}
    (h : colIdx cols d = none) (hne : d ≠ c) : colIdx (cols ++ [c]) d = none := by
  induction cols with
  | nil =>
    have hcd : ¬ c = d := fun hh => hne hh.symm
    simp [colIdx, hcd]
  | cons x xs ih =>
    by_cases hx : x = d
    · simp [colIdx, hx] at h
    · simp only [colIdx, if_neg hx, Option.map_eq_none'] at h
      simp only [List.cons_append, colIdx, if_neg hx, List.append_eq, ih h, Option.map_none']

theorem zipSetMap_get {rows : List (List Value)} {vs : List Value} {i : Nat}
    (h : ∀ r ∈ rows, i < r.length) (hlen : vs.length = rows.length) :
    (((rows.zip vs).map (fun p => p.1.set i p.2)).map (fun r => cellAt r i)) = vs := by
  induction rows generalizing vs with
  | nil =>
    cases vs with
    | nil => rfl
    | cons v vs => simp at hlen
  | cons r rows ih =>
    cases vs with
    | nil => simp at hlen
    | cons v vs =>
      simp only [List.zip_cons_cons, List.map_cons]
      congr 1
      · have hr : i < r.length := h r (List.mem_cons_self r rows)
        simp [cellAt, List.getD_eq_getElem?_getD, List.getElem?_set_self, hr]
      · exact ih (fun x hx => h x (List.mem_cons_of_mem _ hx)) (by simpa using hlen)

theorem zipSetMap_other {rows : List (List Value)} {vs : List Value} {i j : Nat}
    (hne : i ≠ j) (hlen : vs.length = rows.length) :
    (((rows.zip vs).map (fun p => p.1.set i p.2)).map (fun r => cellAt r j))
      = rows.map (fun r => cellAt r j) := by
  induction rows generalizing vs with
  | nil => rfl
  | cons r rows ih =>
    cases vs with
    | nil => simp at hlen
    | cons v vs =>
      simp only [List.zip_cons_cons, List.map_cons]
      congr 1
      · simp [cellAt, List.getD_eq_getElem?_getD, List.getElem?_set_ne hne]
      · exact ih (by simpa using hlen)

theorem zipAppendMap_get {rows : List (List Value)} {vs : List Value} {n : Nat}
    (h : ∀ r ∈ rows, r.length = n) (hlen : vs.length = rows.length) :
    (((rows.zip vs).map (fun p => p.1 ++ [p.2])).map (fun r => cellAt r n)) = vs := by
  induction rows generalizing vs with
  | nil =>
    cases vs with
    | nil => rfl
    | cons v vs => simp at hlen
  | cons r rows ih =>
    cases vs with
    | nil => simp at hlen
    | cons v vs =>
      simp only [List.zip_cons_cons, List.map_cons]
      congr 1
      · have hr : r.length = n := h r (List.mem_cons_self r rows)
        subst hr
        simp [cellAt, List.getD_eq_getElem?_getD, List.getElem?_append_right]
      · exact ih (fun x hx => h x (List.mem_cons_of_mem _ hx)) (by simpa using hlen)

theorem zipAppendMap_other {rows : List (List Value)} {vs : List Value} {j : Nat}
    (h : ∀ r ∈ rows, j < r.length) (hlen : vs.length = rows.length) :
    (((rows.zip vs).map (fun p => p.1 ++ [p.2])).map (fun r => cellAt r j))
      = rows.map (fun r => cellAt r j) := by
  induction rows generalizing vs with
  | nil => rfl
  | cons r rows ih =>
    cases vs with
    | nil => simp at hlen
    | cons v vs =>
      simp only [List.zip_cons_cons, List.map_cons]
      congr 1
      · have hr : j < r.length := h r (List.mem_cons_self r rows)
        simp [cellAt, List.getD_eq_getElem?_getD, List.getElem?_append_left hr]
      · exact ih (fun x hx => h x (List.mem_cons_of_mem _ hx)) (by simpa using hlen)

theorem getCol_length {t : Table} {c : String} (h : t.hasCol c = true) :
    (t.getCol c).length = t.rows.length := by
  unfold Table.hasCol at h
  obtain ⟨i, hi⟩ := Option.isSome_iff_exists.mp h
  simp [Table.getCol, hi]

theorem getCol_absent {t : Table} {c : String} (h : t.hasCol c = false) :
    t.getCol c = [] := by
  unfold Table.hasCol at h
  cases hi : colIdx t.cols c with
  | none => simp [Table.getCol, hi]
  | some i => rw [hi] at h; simp at h

theorem getCol_setCol_self {t : Table} {c : String} {vs : List Value}
    (hwf : t.WF) (hlen : vs.length = t.rows.length) :
    (t.setCol c vs).getCol c = vs := by
  unfold Table.setCol
  cases hi : colIdx t.cols c with
  | some i =>
    have hlt : i < t.cols.length := colIdx_lt_length hi
    simp only [Table.getCol, hi]
    exact zipSetMap_get (fun r hr => by rw [hwf r hr]; exact hlt) hlen
  | none =>
    simp only [Table.getCol, colIdx_append_self hi]
    exact zipAppendMap_get (fun r hr => hwf r hr) hlen

theorem getCol_setCol_ne {t : Table} {c d : String} {vs : List Value}
    (hwf : t.WF) (hlen : vs.length = t.rows.length) (hne : d ≠ c) :
    (t.setCol c vs).getCol d = t.getCol d := by
  unfold Table.setCol
  cases hi : colIdx t.cols c with
  | some i =>
    cases hj : colIdx t.cols d with
    | some j =>
      have hij : c ≠ d := fun h => hne h.symm
      simp only [Table.getCol, hj]
      exact zipSetMap_other (colIdx_ne hi hj hij) hlen
    | none => simp [Table.getCol, hj]
  | none =>
    cases hj : colIdx t.cols d with
    | some j =>
      have hlt : j < t.cols.length := colIdx_lt_length hj
      simp only [Table.getCol, colIdx_append_of_some hj, hj]
      exact zipAppendMap_other (fun r hr => by rw [hwf r hr]; exact hlt) hlen
    | none => simp [Table.getCol, colIdx_append_none hj hne, hj]

theorem WF_setCol {t : Table} {c : String} {vs : List Value}
    (hwf : t.WF) (_hlen : vs.length = t.rows.length) : (t.setCol c vs).WF := by
  unfold Table.setCol
  cases hi : colIdx t.cols c with
  | some i =>
    intro r hr
    simp only [List.mem_map] at hr
    obtain ⟨p, hp, rfl⟩ := hr
    have := (List.of_mem_zip hp).1
    simp [List.length_set, hwf _ this]
  | none =>
    intro r hr
    simp only [List.mem_map] at hr
    obtain ⟨p, hp, rfl⟩ := hr
    have := (List.of_mem_zip hp).1
    simp [List.length_append, hwf _ this]

theorem rows_length_setCol {t : Table} {c : String} {vs : List Value}
    (hlen : vs.length = t.rows.length) :
    (t.setCol c vs).rows.length = t.rows.length := by
  unfold Table.setCol
  cases hi : colIdx t.cols c with
  | some i => simp [hlen]
  | none => simp [hlen]

theorem hasCol_setCol_self {t : Table} {c : String} {vs : List Value} :
    (t.setCol c vs).hasCol c = true := by
  unfold Table.setCol Table.hasCol
  cases hi : colIdx t.cols c with
  | some i => simp [hi]
  | none => simp [colIdx_append_self hi]

theorem hasCol_setCol_pres {t : Table} {c d : String} {vs : List Value}
    (h : t.hasCol d = true) : (t.setCol c vs).hasCol d = true := by
  unfold Table.hasCol at h
  obtain ⟨j, hj⟩ := Option.isSome_iff_exists.mp h
  unfold Table.setCol Table.hasCol
  cases hi : colIdx t.cols c with
  | some i => simp [hj]
  | none => simp [colIdx_append_of_some hj]

theorem set_append_last (r : List Value) (v : Value) :
    (r ++ [v]).set r.length v = r ++ [v] := by
  induction r with
  | nil => rfl
  | cons x xs ih =>
    show x :: (xs ++ [v]).set xs.length v = x :: (xs ++ [v])
    rw [ih]

theorem zip_map_set_idem (rows : List (List Value)) (vs : List Value) (i : Nat) :
    ((((rows.zip vs).map (fun p => p.1.set i p.2)).zip vs).map (fun p => p.1.set i p.2))
      = (rows.zip vs).map (fun p => p.1.set i p.2) := by
  induction rows generalizing vs with
  | nil => rfl
  | cons r rows ih =>
    cases vs with
    | nil => rfl
    | cons v vs =>
      simp only [List.zip_cons_cons, List.map_cons]
      congr 1
      · simp [List.set_set]
      · exact ih vs

theorem zip_map_append_set (rows : List (List Value)) (vs : List Value) (n : Nat)
    (h : ∀ r ∈ rows, r.length = n) :
    ((((rows.zip vs).map (fun p => p.1 ++ [p.2])).zip vs).map (fun p => p.1.set n p.2))
      = (rows.zip vs).map (fun p => p.1 ++ [p.2]) := by
  induction rows generalizing vs with
  | nil => rfl
  | cons r rows ih =>
    cases vs with
    | nil => rfl
    | cons v vs =>
      simp only [List.zip_cons_cons, List.map_cons]
      congr 1
      · have hr : r.length = n := h r (List.mem_cons_self r rows)
        subst hr
        exact set_append_last r v
      · exact ih vs (fun x hx => h x (List.mem_cons_of_mem _ hx))

theorem setCol_setCol_same {t : Table} {c : String} {vs : List Value}
    (hwf : t.WF) (_hlen : vs.length = t.rows.length) :
    (t.setCol c vs).setCol c vs = t.setCol c vs := by
  unfold Table.setCol
  cases hi : colIdx t.cols c with
  | some i =>
    simp only [hi]
    congr 1
    exact zip_map_set_idem t.rows vs i
  | none =>
    simp only [colIdx_append_self hi]
    congr 1
    exact zip_map_append_set t.rows vs t.cols.length (fun r hr => hwf r hr)

/-! ### FeatureDeriver: src/app.py lines 75-89 -/

/-- The recognised truthy set (line 78 of `src/app.py`). -/
def truthyStrings : List String := ["yes", "y", "true", "1"]

/-- Python `str(x)` on a cell (`str` of the `NaN` missing value is `"nan"`). -/
def pyStr : Value → String
  | .vInt n => intToString n
  | .vStr s => s
  | .vNone => "nan"

/-- Line 78: `1 if str(x).strip().lower() in ['yes','y','true','1'] else 0`. -/
def truthyFlag (v : Value) : Int :=
  if truthyStrings.contains (normStr (pyStr v)) then 1 else 0

/-- Lines 76-80: ensure `Attrition_bool` exists.  A pre-existing
`Attrition_bool` column is left untouched and `Attrition` is never
consulted; otherwise the flag is mapped from `Attrition` through the
truthy test, or set to the constant 0 when `Attrition` is also absent. -/
def deriveAttritionBool (t : Table) : Table :=
  if t.hasCol "Attrition_bool" then t
  else if t.hasCol "Attrition" then
    t.setCol "Attrition_bool" ((t.getCol "Attrition").map (fun v => .vInt (truthyFlag v)))
  else
    t.setCol "Attrition_bool" (List.replicate t.rows.length (.vInt 0))

/-- The five age bands (line 86 of `src/app.py`). -/
def ageBands : List String := ["18-25", "26-35", "36-45", "46-55", "55+"]

/-- Line 87: `pd.cut(..., bins=[17,25,35,45,55,100], labels=...,
include_lowest=True)` on one age.  With `include_lowest` the first
interval is the closed `[17,25]`; the others are half-open `(lo,hi]`;
ages outside `[17,100]` fall in no interval and get no bucket. -/
def bucketOfAge (a : Int) : Value :=
  if 17 ≤ a ∧ a ≤ 25 then .vStr "18-25"
  else if 25 < a ∧ a ≤ 35 then .vStr "26-35"
  else if 35 < a ∧ a ≤ 45 then .vStr "36-45"
  else if 45 < a ∧ a ≤ 55 then .vStr "46-55"
  else if 55 < a ∧ a ≤ 100 then .vStr "55+"
  else .vNone

/-- Line 87: `.fillna(-1)` replaces a missing age by the sentinel -1,
which lies below the lowest bucket boundary. -/
def ageCell : Value → Int
  | .vInt n => n
  | _ => -1

/-- Whether a cell is numeric.  `pd.cut` raises a `TypeError` on string
data, which the `except` branch (lines 88-89) turns into an all-missing
bucket column. -/
def isNumCell : Value → Bool
  | .vStr _ => false
  | _ => true

/-- Lines 83-89: derive `AgeBucket` when an `Age` column exists. -/
def deriveAgeBucket (t : Table) : Table :=
  if t.hasCol "Age" then
    if (t.getCol "Age").all isNumCell then
      t.setCol "AgeBucket" ((t.getCol "Age").map (fun v => bucketOfAge (ageCell v)))
    else
      t.setCol "AgeBucket" ((t.getCol "Age").map (fun _ => Value.vNone))
  else t

/-- The full derivation step (lines 75-89). -/
def derive (t : Table) : Table := deriveAgeBucket (deriveAttritionBool t)

/-! ### KPIAggregator: src/app.py lines 91-96 -/

/-- Numeric value of a cell under summation: pandas `sum` skips missing
values, so they contribute 0. -/
def valInt : Value → Int
  | .vInt n => n
  | _ => 0

/-- Line 92: `int(df['Attrition_bool'].sum()) if 'Attrition_bool' in
df.columns else 0`. -/
def attrition_count (t : Table) : Int :=
  if t.hasCol "Attrition_bool" then ((t.getCol "Attrition_bool").map valInt).sum else 0

/-- Python `round` to the nearest integer with ties to the even integer
(banker's rounding). -/
def roundHalfEven (q : ℚ) : Int :=
  if q - ⌊q⌋ < 1/2 then ⌊q⌋
  else if q - ⌊q⌋ > 1/2 then ⌊q⌋ + 1
  else if 2 ∣ ⌊q⌋ then ⌊q⌋ else ⌊q⌋ + 1

/-- Python `round(x, 1)`. -/
def pyRound1 (q : ℚ) : ℚ := (roundHalfEven (q * 10) : ℚ) / 10

/-- Line 93: `round(100 * attrition_count / total_employees, 1) if
total_employees else 0`. -/
def attrition_rate (t : Table) : ℚ :=
  if t.rows.length ≠ 0 then pyRound1 (100 * attrition_count t / (t.rows.length : ℚ)) else 0

/-! ### Structural lemmas about the derivation step -/

theorem deriveAttritionBool_skip {t : Table} (h : t.hasCol "Attrition_bool" = true) :
    deriveAttritionBool t = t := by
  unfold deriveAttritionBool
  rw [if_pos h]

theorem deriveAttritionBool_WF {t : Table} (hwf : t.WF) : (deriveAttritionBool t).WF := by
  unfold deriveAttritionBool
  by_cases h : t.hasCol "Attrition_bool" = true
  · rw [if_pos h]; exact hwf
  · rw [if_neg h]
    by_cases ha : t.hasCol "Attrition" = true
    · rw [if_pos ha]
      exact WF_setCol hwf (by simp [getCol_length ha])
    · rw [if_neg ha]
      exact WF_setCol hwf (by simp)

theorem deriveAttritionBool_rows_length {t : Table} :
    (deriveAttritionBool t).rows.length = t.rows.length := by
  unfold deriveAttritionBool
  by_cases h : t.hasCol "Attrition_bool" = true
  · rw [if_pos h]
  · rw [if_neg h]
    by_cases ha : t.hasCol "Attrition" = true
    · rw [if_pos ha]
      exact rows_length_setCol (by simp [getCol_length ha])
    · rw [if_neg ha]
      exact rows_length_setCol (by simp)

theorem deriveAttritionBool_hasFlag {t : Table} :
    (deriveAttritionBool t).hasCol "Attrition_bool" = true := by
  unfold deriveAttritionBool
  by_cases h : t.hasCol "Attrition_bool" = true
  · rw [if_pos h]; exact h
  · rw [if_neg h]
    by_cases ha : t.hasCol "Attrition" = true
    · rw [if_pos ha]; exact hasCol_setCol_self
    · rw [if_neg ha]; exact hasCol_setCol_self

theorem deriveAttritionBool_getCol_ne {t : Table} {d : String} (hwf : t.WF)
    (hne : d ≠ "Attrition_bool") :
    (deriveAttritionBool t).getCol d = t.getCol d := by
  unfold deriveAttritionBool
  by_cases h : t.hasCol "Attrition_bool" = true
  · rw [if_pos h]
  · rw [if_neg h]
    by_cases ha : t.hasCol "Attrition" = true
    · rw [if_pos ha]
      exact getCol_setCol_ne hwf (by simp [getCol_length ha]) hne
    · rw [if_neg ha]
      exact getCol_setCol_ne hwf (by simp) hne

theorem deriveAttritionBool_getFlag_of_absent {t : Table} (hwf : t.WF)
    (h : t.hasCol "Attrition_bool" = false) :
    (deriveAttritionBool t).getCol "Attrition_bool" =
      if t.hasCol "Attrition" then
        (t.getCol "Attrition").map (fun v => .vInt (truthyFlag v))
      else List.replicate t.rows.length (.vInt 0) := by
  unfold deriveAttritionBool
  rw [if_neg (by simp [h])]
  by_cases ha : t.hasCol "Attrition" = true
  · rw [if_pos ha, if_pos ha]
    exact getCol_setCol_self hwf (by simp [getCol_length ha])
  · rw [if_neg ha, if_neg ha]
    exact getCol_setCol_self hwf (by simp)

theorem deriveAgeBucket_WF {t : Table} (hwf : t.WF) : (deriveAgeBucket t).WF := by
  unfold deriveAgeBucket
  by_cases h : t.hasCol "Age" = true
  · rw [if_pos h]
    by_cases hn : (t.getCol "Age").all isNumCell = true
    · rw [if_pos hn]
      exact WF_setCol hwf (by simp [getCol_length h])
    · rw [if_neg hn]
      exact WF_setCol hwf (by simp [getCol_length h])
  · rw [if_neg h]; exact hwf

theorem deriveAgeBucket_rows_length {t : Table} :
    (deriveAgeBucket t).rows.length = t.rows.length := by
  unfold deriveAgeBucket
  by_cases h : t.hasCol "Age" = true
  · rw [if_pos h]
    by_cases hn : (t.getCol "Age").all isNumCell = true
    · rw [if_pos hn]
      exact rows_length_setCol (by simp [getCol_length h])
    · rw [if_neg hn]
      exact rows_length_setCol (by simp [getCol_length h])
  · rw [if_neg h]

theorem deriveAgeBucket_getCol_ne {t : Table} {d : String} (hwf : t.WF)
    (hne : d ≠ "AgeBucket") :
    (deriveAgeBucket t).getCol d = t.getCol d := by
  unfold deriveAgeBucket
  by_cases h : t.hasCol "Age" = true
  · rw [if_pos h]
    by_cases hn : (t.getCol "Age").all isNumCell = true
    · rw [if_pos hn]
      exact getCol_setCol_ne hwf (by simp [getCol_length h]) hne
    · rw [if_neg hn]
      exact getCol_setCol_ne hwf (by simp [getCol_length h]) hne
  · rw [if_neg h]

theorem deriveAgeBucket_hasCol_pres {t : Table} {d : String} (h : t.hasCol d = true) :
    (deriveAgeBucket t).hasCol d = true := by
  unfold deriveAgeBucket
  by_cases hA : t.hasCol "Age" = true
  · rw [if_pos hA]
    by_cases hn : (t.getCol "Age").all isNumCell = true
    · rw [if_pos hn]; exact hasCol_setCol_pres h
    · rw [if_neg hn]; exact hasCol_setCol_pres h
  · rw [if_neg hA]; exact h

theorem deriveAgeBucket_idem {t : Table} (hwf : t.WF) :
    deriveAgeBucket (deriveAgeBucket t) = deriveAgeBucket t := by
  by_cases hA : t.hasCol "Age" = true
  · by_cases hn : (t.getCol "Age").all isNumCell = true
    · have hlen : ((t.getCol "Age").map (fun v => bucketOfAge (ageCell v))).length
          = t.rows.length := by simp [getCol_length hA]
      have e1 : deriveAgeBucket t
          = t.setCol "AgeBucket" ((t.getCol "Age").map (fun v => bucketOfAge (ageCell v))) := by
        unfold deriveAgeBucket
        rw [if_pos hA, if_pos hn]
      rw [e1]
      have hA1 : (t.setCol "AgeBucket"
          ((t.getCol "Age").map (fun v => bucketOfAge (ageCell v)))).hasCol "Age" = true :=
        hasCol_setCol_pres hA
      have hAge1 : (t.setCol "AgeBucket"
          ((t.getCol "Age").map (fun v => bucketOfAge (ageCell v)))).getCol "Age"
          = t.getCol "Age" := getCol_setCol_ne hwf hlen (by decide)
      unfold deriveAgeBucket
      rw [if_pos hA1, hAge1, if_pos hn]
      exact setCol_setCol_same hwf hlen
    · have hlen : ((t.getCol "Age").map (fun _ => Value.vNone)).length = t.rows.length := by
        simp [getCol_length hA]
      have e1 : deriveAgeBucket t
          = t.setCol "AgeBucket" ((t.getCol "Age").map (fun _ => Value.vNone)) := by
        unfold deriveAgeBucket
        rw [if_pos hA, if_neg hn]
      rw [e1]
      have hA1 : (t.setCol "AgeBucket"
          ((t.getCol "Age").map (fun _ => Value.vNone))).hasCol "Age" = true :=
        hasCol_setCol_pres hA
      have hAge1 : (t.setCol "AgeBucket"
          ((t.getCol "Age").map (fun _ => Value.vNone))).getCol "Age"
          = t.getCol "Age" := getCol_setCol_ne hwf hlen (by decide)
      unfold deriveAgeBucket
      rw [if_pos hA1, hAge1, if_neg hn]
      exact setCol_setCol_same hwf hlen
  · have e1 : deriveAgeBucket t = t := by
      unfold deriveAgeBucket
      rw [if_neg hA]
    rw [e1, e1]

theorem deriveAgeBucket_getBucket {t : Table} (hwf : t.WF) (hA : t.hasCol "Age" = true)
    (hn : (t.getCol "Age").all isNumCell = true) :
    (deriveAgeBucket t).getCol "AgeBucket"
      = (t.getCol "Age").map (fun v => bucketOfAge (ageCell v)) := by
  unfold deriveAgeBucket
  rw [if_pos hA, if_pos hn]
  exact getCol_setCol_self hwf (by simp [getCol_length hA])

/-! ### RiskGrouper: src/app.py lines 98-119 -/

/-- Code-point lexicographic comparison of character lists: the order in
which pandas sorts Python string group keys. -/
def lexLe : List Char → List Char → Bool
  | [], _ => true
  | _ :: _, [] => false
  | a :: xs, b :: ys => a.toNat < b.toNat || (a.toNat = b.toNat && lexLe xs ys)

theorem lexLe_refl : ∀ xs, lexLe xs xs = true
  | [] => rfl
  | a :: xs => by
    simp only [lexLe, Bool.or_eq_true, Bool.and_eq_true, decide_eq_true_eq]
    exact Or.inr ⟨trivial, lexLe_refl xs⟩

theorem lexLe_trans : ∀ xs ys zs, lexLe xs ys = true → lexLe ys zs = true → lexLe xs zs = true
  | [], _, _, _, _ => rfl
  | _ :: _, [], _, h1, _ => by simp [lexLe] at h1
  | _ :: _, _ :: _, [], _, h2 => by simp [lexLe] at h2
  | a :: xs, b :: ys, c :: zs, h1, h2 => by
    simp only [lexLe, Bool.or_eq_true, Bool.and_eq_true, decide_eq_true_eq] at h1 h2 ⊢
    rcases h1 with h1 | ⟨e1, r1⟩
    · rcases h2 with h2 | ⟨e2, r2⟩
      · exact Or.inl (by omega)
      · exact Or.inl (by omega)
    · rcases h2 with h2 | ⟨e2, r2⟩
      · exact Or.inl (by omega)
      · exact Or.inr ⟨by omega, lexLe_trans xs ys zs r1 r2⟩

theorem lexLe_total : ∀ xs ys, lexLe xs ys = true ∨ lexLe ys xs = true
  | [], _ => Or.inl rfl
  | _ :: _, [] => Or.inr rfl
  | a :: xs, b :: ys => by
    simp only [lexLe, Bool.or_eq_true, Bool.and_eq_true, decide_eq_true_eq]
    rcases Nat.lt_trichotomy a.toNat b.toNat with h | h | h
    · exact Or.inl (Or.inl h)
    · rcases lexLe_total xs ys with r | r
      · exact Or.inl (Or.inr ⟨h, r⟩)
      · exact Or.inr (Or.inr ⟨h.symm, r⟩)
    · exact Or.inr (Or.inl h)

/-- The mixed-type ascending order pandas uses on group keys:
`groupby(sort=True)` sorts the distinct keys with `safe_sort`, which on
a homogeneous column is the plain numeric or string order and on a
mixed-type column falls back to `_sort_mixed` — numbers first, then
strings, then missing values. -/
def valLexLe : Value → Value → Bool
  | .vInt a, .vInt b => decide (a ≤ b)
  | .vInt _, _ => true
  | .vStr _, .vInt _ => false
  | .vStr a, .vStr b => lexLe a.data b.data
  | .vStr _, .vNone => true
  | .vNone, .vNone => true
  | .vNone, _ => false

theorem valLexLe_refl : ∀ a, valLexLe a a = true
  | .vInt a => decide_eq_true (le_refl a)
  | .vStr s => lexLe_refl s.data
  | .vNone => rfl

theorem valLexLe_trans : ∀ a b c,
    valLexLe a b = true → valLexLe b c = true → valLexLe a c = true
  | .vInt _, .vInt _, .vInt _, h1, h2 =>
      decide_eq_true (le_trans (of_decide_eq_true h1) (of_decide_eq_true h2))
  | .vInt _, _, .vStr _, _, _ => rfl
  | .vInt _, _, .vNone, _, _ => rfl
  | .vInt _, .vStr _, .vInt _, _, h2 => Bool.noConfusion h2
  | .vInt _, .vNone, .vInt _, _, h2 => Bool.noConfusion h2
  | .vStr _, .vInt _, _, h1, _ => Bool.noConfusion h1
  | .vStr a, .vStr b, .vStr c, h1, h2 => lexLe_trans a.data b.data c.data h1 h2
  | .vStr _, .vStr _, .vInt _, _, h2 => Bool.noConfusion h2
  | .vStr _, .vStr _, .vNone, _, _ => rfl
  | .vStr _, .vNone, .vInt _, _, h2 => Bool.noConfusion h2
  | .vStr _, .vNone, .vStr _, _, h2 => Bool.noConfusion h2
  | .vStr _, .vNone, .vNone, _, _ => rfl
  | .vNone, .vInt _, _, h1, _ => Bool.noConfusion h1
  | .vNone, .vStr _, _, h1, _ => Bool.noConfusion h1
  | .vNone, .vNone, .vInt _, _, h2 => Bool.noConfusion h2
  | .vNone, .vNone, .vStr _, _, h2 => Bool.noConfusion h2
  | .vNone, .vNone, .vNone, _, _ => rfl

theorem valLexLe_total : ∀ a b, valLexLe a b = true ∨ valLexLe b a = true
  | .vInt x, .vInt y => by
      rcases le_total x y with h | h
      · exact Or.inl (decide_eq_true h)
      · exact Or.inr (decide_eq_true h)
  | .vInt _, .vStr _ => Or.inl rfl
  | .vInt _, .vNone => Or.inl rfl
  | .vStr _, .vInt _ => Or.inr rfl
  | .vStr a, .vStr b => lexLe_total a.data b.data
  | .vStr _, .vNone => Or.inl rfl
  | .vNone, .vInt _ => Or.inr rfl
  | .vNone, .vStr _ => Or.inr rfl
  | .vNone, .vNone => Or.inl rfl

/-- The group-key order as a relation. -/
def keyLe (a b : Value) : Prop := valLexLe a b = true

instance : DecidableRel keyLe :=
  fun a b => inferInstanceAs (Decidable (valLexLe a b = true))

instance : IsTotal Value keyLe := ⟨fun a b => valLexLe_total a b⟩

instance : IsTrans Value keyLe := ⟨fun a b c => valLexLe_trans a b c⟩

instance : IsRefl Value keyLe := ⟨fun a => valLexLe_refl a⟩

/-- Distinct values in order of first occurrence. -/
def dedupFirst {α : Type} [DecidableEq α] (l : List α) : List α :=
  l.foldl (fun acc x => if x ∈ acc then acc else acc ++ [x]) []

/-- One group-risk row: group key, `total` and `left` from lines
105-106, and `rate` = 100 × left / total.  `('Attrition_bool','count')`
counts only the group's non-missing flag cells and
`('Attrition_bool','sum')` skips missing flags, so when every flag of
the group is missing the rate is 0/0 = NaN, modelled as `none`. -/
structure GroupRow where
  key : Value
  total : Nat
  left : Int
  rate : Option ℚ
deriving DecidableEq

/-- Is the cell a string? -/
def isStrCell : Value → Bool
  | .vStr _ => true
  | _ => false

/-- Row-by-row pairs of (dimension cell, flag cell). -/
def dimFlagPairs (t : Table) (dim : String) : List (Value × Value) :=
  (t.getCol dim).zip (t.getCol "Attrition_bool")

/-- The aggregation row of one group (lines 105-106):
`total=('Attrition_bool','count')` is the non-missing flag count,
`left=('Attrition_bool','sum')` the missing-skipping sum, and
`rate = 100 * left / total`, NaN (`none`) when the count is 0. -/
def groupRowFor (t : Table) (dim : String) (k : Value) : GroupRow :=
  let flags := (dimFlagPairs t dim).filterMap
    (fun p => if p.1 = k then some p.2 else none)
  let cnt := (flags.filter (fun v => v != Value.vNone)).length
  { key := k, total := cnt, left := (flags.map valInt).sum,
    rate := if cnt = 0 then none
            else some (100 * ((flags.map valInt).sum : ℚ) / (cnt : ℚ)) }

/-- The distinct non-missing group keys sorted ascending (`groupby`
default `sort=True` drops missing keys and sorts the rest). -/
def sortedKeys (t : Table) (dim : String) : List Value :=
  List.insertionSort keyLe (dedupFirst ((t.getCol dim).filter (fun v => v != Value.vNone)))

/-- `Series.idxmax` scan over the rates it does not skip: keep the
current best, replacing it only on a strictly greater value, so the
first occurrence of the maximum wins. -/
def bestOf : List GroupRow → GroupRow → GroupRow
  | [], best => best
  | g :: gs, best => bestOf gs (if best.rate.getD 0 < g.rate.getD 0 then g else best)

/-- `grp['rate'].idxmax()` with its default `skipna=True`: NaN rates are
ignored; there is no maximum (`none`) when the frame is empty (then
line 107 never reaches `idxmax`) or every rate is NaN (then `idxmax`
raises into the `except` branch). -/
def bestRow (l : List GroupRow) : Option GroupRow :=
  match l.filter (fun g => g.rate.isSome) with
  | [] => none
  | g :: gs => some (bestOf gs g)

/-- Lines 99-110 (and identically 112-119): the risk grouper for one
dimension.  It returns the group rows (keys ascending, as `groupby`
sorts them) and the top-risk key from `idxmax`, with `([], "N/A")` when
the dimension or the flag column is absent, when a string flag on a row
with a non-missing key makes the aggregation or `100*left/total` raise
(line 106), when there are no non-missing keys (`grp.empty`, line 107),
or when every rate is NaN (`idxmax` raises, line 108) — the `except`
branches reset the groups and leave the "N/A" sentinel. -/
def groupRisk (t : Table) (dim : String) : List GroupRow × Value :=
  if t.hasCol dim ∧ t.hasCol "Attrition_bool" then
    if (dimFlagPairs t dim).all (fun p => p.1 == Value.vNone || !(isStrCell p.2)) then
      match bestRow ((sortedKeys t dim).map (groupRowFor t dim)) with
      | some g => ((sortedKeys t dim).map (groupRowFor t dim), g.key)
      | none => ([], Value.vStr "N/A")
    else ([], Value.vStr "N/A")
  else ([], Value.vStr "N/A")

theorem bestOf_base_le : ∀ (l : List GroupRow) (b : GroupRow),
    b.rate.getD 0 ≤ (bestOf l b).rate.getD 0
  | [], _ => le_refl _
  | g :: gs, b => by
    unfold bestOf
    by_cases h : b.rate.getD 0 < g.rate.getD 0
    · rw [if_pos h]
      exact le_of_lt (lt_of_lt_of_le h (bestOf_base_le gs g))
    · rw [if_neg h]
      exact bestOf_base_le gs b

theorem bestOf_mem_le : ∀ (l : List GroupRow) (b : GroupRow),
    ∀ g ∈ l, g.rate.getD 0 ≤ (bestOf l b).rate.getD 0
  | [], _, _, hg => absurd hg (List.not_mem_nil _)
  | g0 :: gs, b, g, hg => by
    unfold bestOf
    rcases List.mem_cons.mp hg with rfl | hg2
    · by_cases h : b.rate.getD 0 < g.rate.getD 0
      · rw [if_pos h]
        exact bestOf_base_le gs g
      · rw [if_neg h]
        exact le_trans (le_of_not_lt h) (bestOf_base_le gs b)
    · by_cases h : b.rate.getD 0 < g0.rate.getD 0
      · rw [if_pos h]
        exact bestOf_mem_le gs g0 g hg2
      · rw [if_neg h]
        exact bestOf_mem_le gs b g hg2

theorem bestOf_cases : ∀ (l : List GroupRow) (b : GroupRow),
    bestOf l b = b ∨ ((bestOf l b) ∈ l ∧ b.rate.getD 0 < (bestOf l b).rate.getD 0)
  | [], _ => Or.inl rfl
  | g :: gs, b => by
    unfold bestOf
    by_cases h : b.rate.getD 0 < g.rate.getD 0
    · rw [if_pos h]
      rcases bestOf_cases gs g with he | ⟨hm, hr⟩
      · exact Or.inr ⟨by rw [he]; exact List.mem_cons_self g gs, by rw [he]; exact h⟩
      · exact Or.inr ⟨List.mem_cons_of_mem g hm, lt_trans h hr⟩
    · rw [if_neg h]
      rcases bestOf_cases gs b with he | ⟨hm, hr⟩
      · exact Or.inl he
      · exact Or.inr ⟨List.mem_cons_of_mem g hm, hr⟩

theorem bestOf_mem_cons (l : List GroupRow) (b : GroupRow) : bestOf l b ∈ b :: l := by
  rcases bestOf_cases l b with he | ⟨hm, _⟩
  · rw [he]; exact List.mem_cons_self b l
  · exact List.mem_cons_of_mem b hm

theorem bestOf_key_min : ∀ (l : List GroupRow) (b : GroupRow),
    (b :: l).Pairwise (fun x y => keyLe x.key y.key) →
    ∀ g ∈ b :: l, g.rate.getD 0 = (bestOf l b).rate.getD 0 → keyLe (bestOf l b).key g.key
  | [], b, _, g, hg, _ => by
    rcases List.mem_cons.mp hg with rfl | hg2
    · exact refl_of keyLe _
    · exact absurd hg2 (List.not_mem_nil _)
  | g0 :: gs, b, hsort, g, hg, hrate => by
    unfold bestOf at hrate ⊢
    by_cases h : b.rate.getD 0 < g0.rate.getD 0
    · rw [if_pos h] at hrate ⊢
      have hsort2 : (g0 :: gs).Pairwise (fun x y => keyLe x.key y.key) := hsort.of_cons
      rcases List.mem_cons.mp hg with rfl | hg2
      · exfalso
        have h1 : g0.rate.getD 0 ≤ (bestOf gs g0).rate.getD 0 := bestOf_base_le gs g0
        rw [← hrate] at h1
        exact absurd (lt_of_lt_of_le h h1) (lt_irrefl _)
      · exact bestOf_key_min gs g0 hsort2 g hg2 hrate
    · rw [if_neg h] at hrate ⊢
      have hsub : (b :: gs).Sublist (b :: g0 :: gs) :=
        List.Sublist.cons₂ b (List.sublist_cons_self g0 gs)
      have hsort2 : (b :: gs).Pairwise (fun x y => keyLe x.key y.key) :=
        hsort.sublist hsub
      rcases List.mem_cons.mp hg with rfl | hg2
      · rcases bestOf_cases gs g with he | ⟨hm, hr⟩
        · rw [he]; exact refl_of keyLe _
        · rw [hrate] at hr
          exact absurd hr (lt_irrefl _)
      · rcases List.mem_cons.mp hg2 with rfl | hg3
        · rcases bestOf_cases gs b with he | ⟨hm, hr⟩
          · rw [he]
            exact (List.pairwise_cons.mp hsort).1 g (List.mem_cons_self g gs)
          · exfalso
            have hg0b : g.rate.getD 0 ≤ b.rate.getD 0 := le_of_not_lt h
            rw [hrate] at hg0b
            exact absurd (lt_of_le_of_lt hg0b hr) (lt_irrefl _)
        · exact bestOf_key_min gs b hsort2 g (List.mem_cons_of_mem b hg3) hrate

/-! ### AttritionPredictor: src/app.py lines 780-820 -/

/-- Line 782: the fixed ordered candidate feature list. -/
def candidateFeatures : List String :=
  ["Age", "MonthlyIncome", "YearsAtCompany", "DistanceFromHome", "JobSatisfaction", "OverTime"]

/-- Line 782: `[c for c in [...] if c in df.columns]` — the candidates
present in the table, in candidate-list order. -/
def selectedFeatures (t : Table) : List String :=
  candidateFeatures.filter (fun c => t.hasCol c)

/-- `df[features]`: the rows restricted to the given feature columns. -/
def projRows (t : Table) (fs : List String) : List (List Value) :=
  t.rows.map (fun r => fs.map (fun c =>
    match colIdx t.cols c with
    | some i => cellAt r i
    | none => Value.vNone))

/-- `y.nunique()` (line 794): distinct non-missing target values. -/
def targetClassCount (t : Table) : Nat :=
  (dedupFirst ((t.getCol "Attrition_bool").filter (fun v => v != Value.vNone))).length

/-- The holdout parameters of line 795: `train_test_split(...,
test_size=0.2, random_state=42, stratify=y)`. -/
structure SplitSpec where
  testFraction : ℚ
  seed : Nat
  stratified : Bool
deriving DecidableEq

/-- Outcome of the model-building phase of `page_predictor`
(lines 782-797): no usable features (lines 783-785), a stratified
holdout split (lines 794-795), or the degenerate path that trains and
evaluates on the full table (lines 796-797). -/
inductive PredictorOutcome where
  | insufficient
  | holdout (features : List String) (spec : SplitSpec)
  | degenerate (features : List String) (trainRows evalRows : List (List Value))
deriving DecidableEq

/-- Lines 782-797 of `src/app.py`. -/
def buildPredictor (t : Table) : PredictorOutcome :=
  let fs := selectedFeatures t
  if fs.isEmpty then .insufficient
  else if 1 < targetClassCount t ∧ 10 ≤ t.rows.length then
    .holdout fs ⟨1/5, 42, true⟩
  else
    .degenerate fs (projRows t fs) (projRows t fs)

/-- `OneHotEncoder(handle_unknown='ignore')` (line 791): the indicator
vector over the categories seen at fit time; a category unseen at fit
time encodes as all zeros instead of raising. -/
def oneHot (cats : List String) (v : String) : List ℚ :=
  cats.map (fun c => if c = v then 1 else 0)

/-- Dot product of real vectors. -/
noncomputable def dotR (w x : List ℝ) : ℝ := ((w.zip x).map (fun p => p.1 * p.2)).sum

/-- The logistic link behind `predict_proba` (lines 793 and 817):
positive-class probability `1 / (1 + exp (-z))`. -/
noncomputable def sigmoid (z : ℝ) : ℝ := 1 / (1 + Real.exp (-z))

/-- Model of `model.predict_proba(pd.DataFrame([inputs]))[0][1]`
(line 817) for a fitted linear model: the numeric features enter
through their weights and the categorical feature through its one-hot
block. -/
noncomputable def predictProba (wNum xNum wCat : List ℝ)
    (cats : List String) (v : String) (b : ℝ) : ℝ :=
  sigmoid (dotR wNum xNum + dotR wCat ((oneHot cats v).map (fun q => (q : ℝ))) + b)

theorem sigmoid_bounds (z : ℝ) : 0 < sigmoid z ∧ sigmoid z < 1 := by
  unfold sigmoid
  have hp : 0 < Real.exp (-z) := Real.exp_pos _
  constructor
  · positivity
  · rw [div_lt_one (by linarith)]
    linarith

theorem oneHot_unseen {cats : List String} {v : String} (h : v ∉ cats) :
    oneHot cats v = List.replicate cats.length 0 := by
  unfold oneHot
  induction cats with
  | nil => rfl
  | cons c cs ih =>
    have hv : v ≠ c := fun he => h (he ▸ List.mem_cons_self c cs)
    have hc : ¬ c = v := fun he => hv he.symm
    rw [List.length_cons, List.replicate_succ]
    simp only [List.map_cons, if_neg hc]
    congr 1
    exact ih (fun hm => h (List.mem_cons_of_mem c hm))

/-! ### DatasetLoader and export: src/app.py lines 48-60 and 825-827

`pd.read_csv` and `DataFrame.to_csv(index=False)` are modelled at the
level pandas documents for this application's calls: one header
record, RFC-4180 `QUOTE_MINIMAL` quoting, the default `na_values`
marker list, blank-line skipping on read, and per-column type
inference (a column whose non-missing fields are all integer literals
loads as integers, otherwise as strings; numeric data is modelled over
`Int`). -/

/-- The default `na_values` markers of `pd.read_csv`. -/
def naMarkers : List String :=
  ["", "#N/A", "#N/A N/A", "#NA", "-1.#IND", "-1.#QNAN", "-NaN", "-nan",
   "1.#IND", "1.#QNAN", "<NA>", "N/A", "NA", "NULL", "NaN", "None", "n/a", "nan", "null"]

/-- Is the raw field a missing-value marker? -/
def isNA (f : String) : Bool := decide (f ∈ naMarkers)

/-- Is the raw field an integer literal?  Pandas numeric parsing
tolerates surrounding whitespace. -/
def isIntField (f : String) : Bool := (intOfChars? (trimChars f.data)).isSome

/-- Parse one raw field, given whether its column was inferred
integer-valued. -/
def cellOfField (isInt : Bool) (f : String) : Value :=
  if isNA f then .vNone
  else if isInt then .vInt ((intOfChars? (trimChars f.data)).getD 0)
  else .vStr f

/-- Column type inference: a column is integer-valued when it has at
least one non-missing field and every non-missing field is an integer
literal. -/
def colIsInt (fields : List String) : Bool :=
  let xs := fields.filter (fun f => !(isNA f))
  !xs.isEmpty && xs.all isIntField

/-- Parse one whole raw column. -/
def colOfFields (fields : List String) : List Value :=
  fields.map (cellOfField (colIsInt fields))

/-- Serialise one cell back to its raw field; a missing cell exports as
the empty field (`to_csv` default `na_rep`). -/
def serializeCell : Value → String
  | .vInt n => intToString n
  | .vStr s => s
  | .vNone => ""

/-- Does the field need `QUOTE_MINIMAL` quoting? -/
def needsQuote (cs : List Char) : Bool := cs.any (fun c => c = ',' || c = '"' || c = '\n')

/-- Double each quote character (CSV escaping inside a quoted field). -/
def escChars : List Char → List Char
  | [] => []
  | c :: cs => if c = '"' then '"' :: '"' :: escChars cs else c :: escChars cs

/-- The emitted raw field: quoted exactly when it holds a delimiter,
a quote or a newline. -/
def encField (f : String) : List Char :=
  if needsQuote f.data then '"' :: (escChars f.data ++ ['"']) else f.data

/-- One CSV record: fields joined by commas. -/
def encodeRow : List String → List Char
  | [] => []
  | [f] => encField f
  | f :: fs => encField f ++ ',' :: encodeRow fs

/-- A whole CSV text: one record per line, each line terminated by a
newline, as `to_csv` writes it. -/
def encodeLines (rows : List (List String)) : List Char :=
  (rows.map (fun r => encodeRow r ++ ['\n'])).flatten

/-- Scan the body of a quoted field: a doubled quote is a literal
quote, a single quote closes the field.  The flag says whether the scan
just passed a quote character whose meaning is still open. -/
def scanQuoted : Bool → List Char → List Char → List Char × List Char
  | _, [], acc => (acc, [])
  | false, c :: rest, acc =>
    if c = '"' then scanQuoted true rest acc
    else scanQuoted false rest (acc ++ [c])
  | true, c :: rest, acc =>
    if c = '"' then scanQuoted false rest (acc ++ ['"'])
    else (acc, c :: rest)

/-- Scan a bare field, stopping before a comma or a newline. -/
def scanBare : List Char → List Char → List Char × List Char
  | [], acc => (acc, [])
  | c :: rest, acc =>
    if c = ',' || c = '\n' then (acc, c :: rest)
    else scanBare rest (acc ++ [c])

/-- Parse one field; the remainder starts with the delimiter, if any. -/
def parseOneField (cs : List Char) : String × List Char :=
  if cs.head? = some '"' then
    (⟨(scanQuoted false cs.tail []).1⟩, (scanQuoted false cs.tail []).2)
  else
    (⟨(scanBare cs []).1⟩, (scanBare cs []).2)

/-- Parse one record: fields up to and through the newline.  The fuel
only bounds the number of fields; it never runs out on the inputs the
loader feeds it. -/
def parseRecord : Nat → List Char → List String × List Char
  | 0, _ => ([], [])
  | fuel + 1, cs =>
    let p := parseOneField cs
    if p.2.head? = some ',' then
      let q := parseRecord fuel p.2.tail
      (p.1 :: q.1, q.2)
    else if p.2.head? = some '\n' then ([p.1], p.2.tail)
    else ([p.1], [])

/-- Parse all records, skipping blank lines (the `read_csv` default
`skip_blank_lines=True`). -/
def parseRecords : Nat → List Char → List (List String)
  | 0, _ => []
  | fuel + 1, cs =>
    if cs.isEmpty then []
    else if cs.head? = some '\n' then parseRecords fuel cs.tail
    else
      let p := parseRecord (cs.length + 1) cs
      p.1 :: parseRecords fuel p.2

/-- Pad or truncate one raw record to the header width (short records
read their missing trailing fields as missing values). -/
def padTo (n : Nat) (r : List String) : List String :=
  (r ++ List.replicate (n - r.length) "").take n

/-- `pd.read_csv` (lines 52 and 54 of `src/app.py`) followed by the
column-name strip of lines 59 and 73. -/
def loadCSV (s : String) : Table :=
  match parseRecords (s.data.length + 1) s.data with
  | [] => ⟨[], []⟩
  | header :: raw =>
    let cols := header.map strTrim
    let n := cols.length
    let raw2 := raw.map (padTo n)
    let kinds := (List.range n).map (fun j => colIsInt (raw2.map (fun r => r.getD j "")))
    ⟨cols, raw2.map (fun r => List.zipWith cellOfField kinds r)⟩

/-- `df.to_csv(index=False)` (line 827): the header record, then one
record per row, fields quoted on demand. -/
def exportCSV (t : Table) : String :=
  ⟨encodeLines (t.cols :: t.rows.map (fun r => r.map serializeCell))⟩

/-! ### Round-trip of the CSV text layer -/

theorem scanQuoted_false_cons (c : Char) (rest acc : List Char) :
    scanQuoted false (c :: rest) acc =
      if c = '"' then scanQuoted true rest acc
      else scanQuoted false rest (acc ++ [c]) := rfl

theorem scanQuoted_true_cons (c : Char) (rest acc : List Char) :
    scanQuoted true (c :: rest) acc =
      if c = '"' then scanQuoted false rest (acc ++ ['"'])
      else (acc, c :: rest) := rfl

theorem scanQuoted_spec : ∀ (f acc suffix : List Char), suffix.head? ≠ some '"' →
    scanQuoted false (escChars f ++ '"' :: suffix) acc = (acc ++ f, suffix)
  | [], acc, suffix, hs => by
    show scanQuoted false ('"' :: suffix) acc = (acc ++ [], suffix)
    rw [List.append_nil, scanQuoted_false_cons, if_pos rfl]
    cases suffix with
    | nil => rfl
    | cons s ss =>
      have hne : s ≠ '"' := fun he => hs (by rw [he]; rfl)
      rw [scanQuoted_true_cons, if_neg hne]
  | c :: f, acc, suffix, hs => by
    by_cases hc : c = '"'
    · subst hc
      show scanQuoted false ('"' :: '"' :: (escChars f ++ '"' :: suffix)) acc = _
      rw [scanQuoted_false_cons, if_pos rfl, scanQuoted_true_cons, if_pos rfl]
      rw [scanQuoted_spec f (acc ++ ['"']) suffix hs]
      simp
    · have he : escChars (c :: f) = c :: escChars f := by
        simp only [escChars, if_neg hc]
      rw [he]
      show scanQuoted false (c :: (escChars f ++ '"' :: suffix)) acc = _
      rw [scanQuoted_false_cons, if_neg hc]
      rw [scanQuoted_spec f (acc ++ [c]) suffix hs]
      simp

theorem scanBare_cons (c : Char) (rest acc : List Char) :
    scanBare (c :: rest) acc =
      if c = ',' || c = '\n' then (acc, c :: rest) else scanBare rest (acc ++ [c]) := rfl

theorem scanBare_stop {c : Char} (rest acc : List Char) (h : c = ',' ∨ c = '\n') :
    scanBare (c :: rest) acc = (acc, c :: rest) := by
  rw [scanBare_cons]
  rcases h with rfl | rfl
  · rw [if_pos (by simp)]
  · rw [if_pos (by simp)]

theorem scanBare_go {c : Char} (rest acc : List Char) (h1 : c ≠ ',') (h2 : c ≠ '\n') :
    scanBare (c :: rest) acc = scanBare rest (acc ++ [c]) := by
  rw [scanBare_cons]
  rw [if_neg (by simp [h1, h2])]

theorem scanBare_spec : ∀ (f acc suffix : List Char),
    (∀ c ∈ f, c ≠ ',' ∧ c ≠ '\n') →
    (suffix = [] ∨ suffix.head? = some ',' ∨ suffix.head? = some '\n') →
    scanBare (f ++ suffix) acc = (acc ++ f, suffix)
  | [], acc, suffix, _, hs => by
    rw [List.nil_append, List.append_nil]
    rcases hs with rfl | hs | hs
    · rfl
    · cases suffix with
      | nil => simp at hs
      | cons s ss =>
        simp only [List.head?_cons, Option.some.injEq] at hs
        subst hs
        exact scanBare_stop ss acc (Or.inl rfl)
    · cases suffix with
      | nil => simp at hs
      | cons s ss =>
        simp only [List.head?_cons, Option.some.injEq] at hs
        subst hs
        exact scanBare_stop ss acc (Or.inr rfl)
  | c :: f, acc, suffix, hf, hs => by
    have hc := hf c (List.mem_cons_self c f)
    show scanBare (c :: (f ++ suffix)) acc = _
    rw [scanBare_go _ acc hc.1 hc.2]
    rw [scanBare_spec f (acc ++ [c]) suffix (fun x hx => hf x (List.mem_cons_of_mem c hx)) hs]
    simp

theorem needsQuote_false_mem {f : List Char} (h : needsQuote f = false) :
    ∀ c ∈ f, c ≠ ',' ∧ c ≠ '"' ∧ c ≠ '\n' := by
  intro c hc
  unfold needsQuote at h
  rw [List.any_eq_false] at h
  have := h c hc
  simp at this
  exact ⟨this.1.1, this.1.2, this.2⟩

theorem parseOneField_spec (f : String) (suffix : List Char)
    (hs : suffix = [] ∨ suffix.head? = some ',' ∨ suffix.head? = some '\n') :
    parseOneField (encField f ++ suffix) = (f, suffix) := by
  have hsq : suffix.head? ≠ some '"' := by
    rcases hs with rfl | hs | hs
    · simp
    · rw [hs]; simp
    · rw [hs]; simp
  unfold parseOneField encField
  by_cases hq : needsQuote f.data = true
  · rw [if_pos hq]
    have ha : ('"' :: (escChars f.data ++ ['"'])) ++ suffix
        = '"' :: (escChars f.data ++ '"' :: suffix) := by simp
    rw [ha]
    rw [if_pos (by rw [List.head?_cons])]
    rw [List.tail_cons]
    rw [scanQuoted_spec f.data [] suffix hsq]
    rfl
  · rw [if_neg hq]
    have hmem := needsQuote_false_mem (Bool.not_eq_true _ ▸ hq : needsQuote f.data = false)
    have hhead : (f.data ++ suffix).head? ≠ some '"' := by
      cases hd : f.data with
      | nil => simpa [hd] using hsq
      | cons c cs =>
        have := hmem c (by rw [hd]; exact List.mem_cons_self c cs)
        rw [List.cons_append, List.head?_cons]
        intro he
        injection he with he2
        exact this.2.1 he2
    rw [if_neg hhead]
    rw [scanBare_spec f.data [] suffix (fun c hc => ⟨(hmem c hc).1, (hmem c hc).2.2⟩) hs]
    rfl

theorem parseRecord_succ (fuel : Nat) (cs : List Char) :
    parseRecord (fuel + 1) cs =
      (let p := parseOneField cs
       if p.2.head? = some ',' then
         let q := parseRecord fuel p.2.tail
         (p.1 :: q.1, q.2)
       else if p.2.head? = some '\n' then ([p.1], p.2.tail)
       else ([p.1], [])) := rfl

theorem parseRecord_spec : ∀ (fs : List String) (fuel : Nat) (rest : List Char),
    fs ≠ [] → fs.length ≤ fuel →
    parseRecord fuel (encodeRow fs ++ '\n' :: rest) = (fs, rest)
  | [], _, _, h, _ => absurd rfl h
  | [f], fuel, rest, _, hl => by
    cases fuel with
    | zero => exact absurd hl (by simp)
    | succ fuel =>
      rw [show encodeRow [f] = encField f from rfl, parseRecord_succ]
      have hp := parseOneField_spec f ('\n' :: rest) (Or.inr (Or.inr rfl))
      simp only [hp]
      simp
  | f :: g :: fs, fuel, rest, _, hl => by
    cases fuel with
    | zero => exact absurd hl (by simp)
    | succ fuel =>
      have he : encodeRow (f :: g :: fs) ++ '\n' :: rest
          = encField f ++ ',' :: (encodeRow (g :: fs) ++ '\n' :: rest) := by
        rw [show encodeRow (f :: g :: fs) = encField f ++ ',' :: encodeRow (g :: fs) from rfl]
        simp
      rw [he, parseRecord_succ]
      have hp := parseOneField_spec f (',' :: (encodeRow (g :: fs) ++ '\n' :: rest))
        (Or.inr (Or.inl rfl))
      simp only [hp]
      have hrec := parseRecord_spec (g :: fs) fuel rest (by simp) (by
        simp only [List.length_cons] at hl ⊢
        omega)
      simp [hrec]

theorem encField_head_ne_nl {f : String} {c : Char} (h : (encField f).head? = some c) :
    c ≠ '\n' := by
  unfold encField at h
  by_cases hq : needsQuote f.data = true
  · rw [if_pos hq] at h
    simp only [List.head?_cons, Option.some.injEq] at h
    subst h
    decide
  · rw [if_neg hq] at h
    have hmem := needsQuote_false_mem (Bool.not_eq_true _ ▸ hq : needsQuote f.data = false)
    cases hd : f.data with
    | nil => rw [hd] at h; simp at h
    | cons x xs =>
      rw [hd] at h
      simp only [List.head?_cons, Option.some.injEq] at h
      subst h
      exact (hmem x (by rw [hd]; exact List.mem_cons_self x xs)).2.2

theorem encodeRow_head_ne_nl : ∀ (fs : List String), (encodeRow fs).head? ≠ some '\n'
  | [] => by simp [encodeRow]
  | [f] => by
    rw [show encodeRow [f] = encField f from rfl]
    intro h
    exact encField_head_ne_nl h rfl
  | f :: g :: fs => by
    rw [show encodeRow (f :: g :: fs) = encField f ++ ',' :: encodeRow (g :: fs) from rfl]
    cases he : encField f with
    | nil => simp
    | cons x xs =>
      simp only [List.cons_append, List.head?_cons]
      intro h
      injection h with h2
      subst h2
      exact encField_head_ne_nl (show (encField f).head? = some '\n' by rw [he]; rfl) rfl

theorem encodeRow_length_ge : ∀ (fs : List String), fs.length ≤ (encodeRow fs).length + 1
  | [] => by simp
  | [f] => by simp
  | f :: g :: fs => by
    rw [show encodeRow (f :: g :: fs) = encField f ++ ',' :: encodeRow (g :: fs) from rfl]
    have := encodeRow_length_ge (g :: fs)
    simp only [List.length_cons, List.length_append] at this ⊢
    omega

theorem encodeLines_cons (r : List String) (rows : List (List String)) :
    encodeLines (r :: rows) = encodeRow r ++ '\n' :: encodeLines rows := by
  unfold encodeLines
  simp

theorem length_le_encodeLines : ∀ (rows : List (List String)),
    rows.length ≤ (encodeLines rows).length
  | [] => by simp [encodeLines]
  | r :: rows => by
    rw [encodeLines_cons]
    have := length_le_encodeLines rows
    simp only [List.length_cons, List.length_append]
    omega

theorem parseRecords_succ (fuel : Nat) (cs : List Char) :
    parseRecords (fuel + 1) cs =
      (if cs.isEmpty then []
       else if cs.head? = some '\n' then parseRecords fuel cs.tail
       else
         let p := parseRecord (cs.length + 1) cs
         p.1 :: parseRecords fuel p.2) := rfl

theorem parseRecords_spec : ∀ (rows : List (List String)) (fuel : Nat),
    (∀ r ∈ rows, r ≠ []) → (∀ r ∈ rows, encodeRow r ≠ []) →
    rows.length ≤ fuel →
    parseRecords fuel (encodeLines rows) = rows
  | [], fuel, _, _, _ => by
    cases fuel with
    | zero => rfl
    | succ fuel => rw [show encodeLines [] = [] from rfl, parseRecords_succ]; rfl
  | r :: rows, fuel, hne, hnb, hl => by
    cases fuel with
    | zero => exact absurd hl (by simp)
    | succ fuel =>
      rw [encodeLines_cons, parseRecords_succ]
      have hr := hnb r (List.mem_cons_self r rows)
      have hcs_ne : (encodeRow r ++ '\n' :: encodeLines rows).isEmpty = false := by
        cases hx : encodeRow r with
        | nil => simp
        | cons a as => simp
      rw [hcs_ne]
      have hhead : (encodeRow r ++ '\n' :: encodeLines rows).head? ≠ some '\n' := by
        cases hx : encodeRow r with
        | nil => exact absurd hx hr
        | cons a as =>
          simp only [List.cons_append, List.head?_cons]
          intro h
          exact encodeRow_head_ne_nl r (by rw [hx]; exact h)
      rw [if_neg (by simp), if_neg hhead]
      have hlen : r.length ≤ (encodeRow r ++ '\n' :: encodeLines rows).length + 1 := by
        have := encodeRow_length_ge r
        simp only [List.length_append, List.length_cons]
        omega
      rw [parseRecord_spec r _ (encodeLines rows) (hne r (List.mem_cons_self r rows)) hlen]
      have hrec := parseRecords_spec rows fuel
        (fun x hx => hne x (List.mem_cons_of_mem r hx))
        (fun x hx => hnb x (List.mem_cons_of_mem r hx))
        (by simp only [List.length_cons] at hl; omega)
      show r :: parseRecords fuel (encodeLines rows) = r :: rows
      rw [hrec]

/-! ### Round-trip of the CSV value layer -/

/-- A parsed column is canonical when serialising it and re-inferring
reproduces it exactly. -/
def CanonicalCol (vs : List Value) : Prop := colOfFields (vs.map serializeCell) = vs

theorem naMarkers_no_int : ∀ m ∈ naMarkers, intOfChars? (trimChars m.data) = none := by decide

theorem intToString_no_ws (n : Int) : ∀ c ∈ (intToString n).data, isWS c = false := by
  intro c hc
  unfold intToString at hc
  split_ifs at hc with h
  · rcases List.mem_cons.mp hc with rfl | hc2
    · rfl
    · exact natToChars_no_ws _ c hc2
  · exact natToChars_no_ws _ c hc

theorem dropWhile_of_all_false {p : Char → Bool} : ∀ {l : List Char},
    (∀ c ∈ l, p c = false) → l.dropWhile p = l
  | [], _ => rfl
  | c :: cs, h => by
    rw [List.dropWhile_cons, if_neg (by rw [h c (List.mem_cons_self c cs)]; simp)]

theorem trimChars_of_no_ws {cs : List Char} (h : ∀ c ∈ cs, isWS c = false) :
    trimChars cs = cs := by
  unfold trimChars dropTrail
  rw [dropWhile_of_all_false h]
  rw [dropWhile_of_all_false (fun c hc => h c (List.mem_reverse.mp hc))]
  exact List.reverse_reverse cs

theorem isNA_intToString (n : Int) : isNA (intToString n) = false := by
  by_cases h : isNA (intToString n) = true
  · exfalso
    have hmem : intToString n ∈ naMarkers := of_decide_eq_true h
    have h0 := naMarkers_no_int _ hmem
    rw [trimChars_of_no_ws (intToString_no_ws n), intOfChars_intToString n] at h0
    exact Option.noConfusion h0
  · simpa using h

theorem isIntField_intToString (n : Int) : isIntField (intToString n) = true := by
  unfold isIntField
  rw [trimChars_of_no_ws (intToString_no_ws n), intOfChars_intToString]
  rfl

theorem cellOfField_int_roundtrip (n : Int) :
    cellOfField true (intToString n) = Value.vInt n := by
  unfold cellOfField
  rw [isNA_intToString]
  simp only [Bool.false_eq_true, if_false, if_pos rfl]
  rw [trimChars_of_no_ws (intToString_no_ws n), intOfChars_intToString]
  rfl

theorem isNA_empty : isNA "" = true := by decide

theorem cellOfField_empty (k : Bool) : cellOfField k "" = Value.vNone := by
  unfold cellOfField
  rw [isNA_empty]
  rfl

theorem cellOfField_str {f : String} (h : isNA f = false) :
    cellOfField false f = Value.vStr f := by
  unfold cellOfField
  rw [h]
  rfl

theorem colIsInt_congr {F G : List String}
    (h : F.filter (fun f => !(isNA f)) = G.filter (fun f => !(isNA f))) :
    colIsInt F = colIsInt G := by
  unfold colIsInt
  rw [h]

theorem filter_serialize_str : ∀ (F : List String),
    ((F.map (fun f => if isNA f then "" else f)).filter (fun f => !(isNA f)))
      = F.filter (fun f => !(isNA f))
  | [] => rfl
  | f :: F => by
    by_cases h : isNA f = true
    · simp [h, isNA_empty, filter_serialize_str F]
    · have h2 : isNA f = false := by simpa using h
      simp [h2, filter_serialize_str F]

theorem intCol_canonical {vs : List Value}
    (h : ∀ v ∈ vs, v = Value.vNone ∨ ∃ n, v = Value.vInt n) : CanonicalCol vs := by
  unfold CanonicalCol colOfFields
  by_cases hex : ∃ n, Value.vInt n ∈ vs
  · have hcol : colIsInt (vs.map serializeCell) = true := by
      unfold colIsInt
      obtain ⟨n, hn⟩ := hex
      have hmem : intToString n ∈ (vs.map serializeCell).filter (fun f => !(isNA f)) := by
        rw [List.mem_filter]
        refine ⟨List.mem_map.mpr ⟨Value.vInt n, hn, rfl⟩, ?_⟩
        rw [isNA_intToString]
        rfl
      have hne : ((vs.map serializeCell).filter (fun f => !(isNA f))).isEmpty = false := by
        cases hxx : (vs.map serializeCell).filter (fun f => !(isNA f)) with
        | nil => rw [hxx] at hmem; exact absurd hmem (List.not_mem_nil _)
        | cons a as => rfl
      show (!((vs.map serializeCell).filter (fun f => !(isNA f))).isEmpty
          && ((vs.map serializeCell).filter (fun f => !(isNA f))).all isIntField) = true
      rw [hne]
      simp only [Bool.not_false, Bool.true_and]
      rw [List.all_eq_true]
      intro x hx
      rw [List.mem_filter] at hx
      obtain ⟨v, hv, rfl⟩ := List.mem_map.mp hx.1
      rcases h v hv with rfl | ⟨m, rfl⟩
      · exfalso
        have : isNA (serializeCell Value.vNone) = true := isNA_empty
        rw [this] at hx
        simp at hx
      · exact isIntField_intToString m
    rw [hcol, List.map_map]
    have hpt : ∀ v ∈ vs, (cellOfField true ∘ serializeCell) v = id v := by
      intro v hv
      rcases h v hv with rfl | ⟨m, rfl⟩
      · exact cellOfField_empty true
      · exact cellOfField_int_roundtrip m
    rw [List.map_congr_left hpt, List.map_id]
  · have hall : ∀ v ∈ vs, v = Value.vNone := by
      intro v hv
      rcases h v hv with rfl | ⟨m, rfl⟩
      · rfl
      · exact absurd ⟨m, hv⟩ hex
    have hser : ∀ f ∈ vs.map serializeCell, f = "" := by
      intro f hf
      obtain ⟨v, hv, rfl⟩ := List.mem_map.mp hf
      rw [hall v hv]
      rfl
    have hcol : colIsInt (vs.map serializeCell) = false := by
      have hfil : (vs.map serializeCell).filter (fun f => !(isNA f)) = [] := by
        rw [List.filter_eq_nil_iff]
        intro f hf
        rw [hser f hf, isNA_empty]
        simp
      show (!((vs.map serializeCell).filter (fun f => !(isNA f))).isEmpty
          && ((vs.map serializeCell).filter (fun f => !(isNA f))).all isIntField) = false
      rw [hfil]
      rfl
    rw [hcol, List.map_map]
    have hpt : ∀ v ∈ vs, (cellOfField false ∘ serializeCell) v = id v := by
      intro v hv
      rw [hall v hv]
      exact cellOfField_empty false
    rw [List.map_congr_left hpt, List.map_id]

theorem strColAux_canonical {vs : List Value}
    (hshape : ∀ v ∈ vs, v = Value.vNone ∨ ∃ s, v = Value.vStr s ∧ isNA s = false)
    (hnotint : colIsInt (vs.map serializeCell) = false) : CanonicalCol vs := by
  unfold CanonicalCol colOfFields
  rw [hnotint, List.map_map]
  have hpt : ∀ v ∈ vs, (cellOfField false ∘ serializeCell) v = id v := by
    intro v hv
    rcases hshape v hv with rfl | ⟨s, rfl, hna⟩
    · exact cellOfField_empty false
    · exact cellOfField_str hna
  rw [List.map_congr_left hpt, List.map_id]

theorem strCol_canonical {vs : List Value}
    (hshape : ∀ v ∈ vs,
      v = Value.vNone ∨ ∃ s, v = Value.vStr s ∧ isNA s = false ∧ isIntField s = false) :
    CanonicalCol vs := by
  apply strColAux_canonical
  · intro v hv
    rcases hshape v hv with rfl | ⟨s, rfl, hna, _⟩
    · exact Or.inl rfl
    · exact Or.inr ⟨s, rfl, hna⟩
  · show (!((vs.map serializeCell).filter (fun f => !(isNA f))).isEmpty
        && ((vs.map serializeCell).filter (fun f => !(isNA f))).all isIntField) = false
    cases hxs : (vs.map serializeCell).filter (fun f => !(isNA f)) with
    | nil => rfl
    | cons x xs =>
      have hx : x ∈ (vs.map serializeCell).filter (fun f => !(isNA f)) := by
        rw [hxs]; exact List.mem_cons_self x xs
      rw [List.mem_filter] at hx
      obtain ⟨v, hv, rfl⟩ := List.mem_map.mp hx.1
      rcases hshape v hv with rfl | ⟨s, rfl, hna, hni⟩
      · exfalso
        have hna0 : isNA (serializeCell Value.vNone) = true := isNA_empty
        rw [hna0] at hx
        simp at hx
      · have hni2 : isIntField (serializeCell (Value.vStr s)) = false := hni
        simp [List.all_cons, hni2]

theorem colOfFields_canonical (F : List String) : CanonicalCol (colOfFields F) := by
  by_cases hk : colIsInt F = true
  · apply intCol_canonical
    intro v hv
    unfold colOfFields at hv
    rw [hk] at hv
    obtain ⟨f, _, rfl⟩ := List.mem_map.mp hv
    unfold cellOfField
    by_cases hna : isNA f = true
    · rw [if_pos hna]; exact Or.inl rfl
    · rw [if_neg hna]
      exact Or.inr ⟨_, by rw [if_pos rfl]⟩
  · have hk2 : colIsInt F = false := by simpa using hk
    apply strColAux_canonical
    · intro v hv
      unfold colOfFields at hv
      rw [hk2] at hv
      obtain ⟨f, _, rfl⟩ := List.mem_map.mp hv
      unfold cellOfField
      by_cases hna : isNA f = true
      · rw [if_pos hna]; exact Or.inl rfl
      · rw [if_neg hna]
        simp only [Bool.false_eq_true, if_false]
        exact Or.inr ⟨f, rfl, by simpa using hna⟩
    · have hmapeq : (colOfFields F).map serializeCell
          = F.map (fun f => if isNA f then "" else f) := by
        unfold colOfFields
        rw [hk2, List.map_map]
        apply List.map_congr_left
        intro f _
        by_cases hna : isNA f = true
        · show serializeCell (cellOfField false f) = _
          rw [cellOfField, if_pos hna, if_pos hna]
          rfl
        · show serializeCell (cellOfField false f) = _
          rw [cellOfField, if_neg hna, if_neg hna]
          rfl
      rw [hmapeq, colIsInt_congr (filter_serialize_str F)]
      exact hk2

/-! ### Round-trip at the table level -/

/-- The `j`-th stored column of a table. -/
def colVals (t : Table) (j : Nat) : List Value := t.rows.map (fun r => cellAt r j)

/-- Every stored column of the table re-loads to itself after export;
this characterises the loader's image. -/
def Table.Canonical (t : Table) : Prop :=
  ∀ j, j < t.cols.length → CanonicalCol (colVals t j)

theorem padTo_self {l : List String} {n : Nat} (h : l.length = n) : padTo n l = l := by
  subst h
  simp [padTo]

theorem padTo_length (n : Nat) (r : List String) : (padTo n r).length = n := by
  simp only [padTo, List.length_take, List.length_append, List.length_replicate]
  omega

theorem encodeRow_ne_nil_of_two {fs : List String} (h : 2 ≤ fs.length) :
    encodeRow fs ≠ [] := by
  match fs, h with
  | f :: g :: fs, _ =>
    rw [show encodeRow (f :: g :: fs) = encField f ++ ',' :: encodeRow (g :: fs) from rfl]
    simp

theorem getD_map_serialize {r : List Value} {j : Nat} (hj : j < r.length) :
    (r.map serializeCell).getD j "" = serializeCell (cellAt r j) := by
  rw [List.getD_eq_getElem?_getD, List.getElem?_map, cellAt, List.getD_eq_getElem?_getD]
  rw [List.getElem?_eq_getElem hj]
  rfl

theorem fields_eq {t : Table} (hwf : t.WF) {j : Nat} (hj : j < t.cols.length) :
    (t.rows.map (fun r => r.map serializeCell)).map (fun r => r.getD j "")
      = (colVals t j).map serializeCell := by
  rw [List.map_map, colVals, List.map_map]
  apply List.map_congr_left
  intro r hr
  show (r.map serializeCell).getD j "" = serializeCell (cellAt r j)
  exact getD_map_serialize (by rw [hwf r hr]; exact hj)

theorem loadCSV_eq (s : String) (header : List String) (raw : List (List String))
    (h : parseRecords (s.data.length + 1) s.data = header :: raw) :
    loadCSV s = ⟨header.map strTrim,
      (raw.map (padTo (header.map strTrim).length)).map (fun r =>
        List.zipWith cellOfField
          ((List.range (header.map strTrim).length).map (fun j =>
            colIsInt ((raw.map (padTo (header.map strTrim).length)).map
              (fun r2 => r2.getD j ""))))
          r)⟩ := by
  unfold loadCSV
  rw [h]

theorem loadCSV_exportCSV {t : Table} (hwf : t.WF)
    (htrim : ∀ c ∈ t.cols, strTrim c = c) (hcan : t.Canonical)
    (hcols : 2 ≤ t.cols.length) : loadCSV (exportCSV t) = t := by
  have hct : t.cols.map strTrim = t.cols := by
    rw [List.map_congr_left (fun c hc => htrim c hc)]
    exact List.map_id t.cols
  have hparse : parseRecords ((exportCSV t).data.length + 1) (exportCSV t).data
      = t.cols :: t.rows.map (fun r => r.map serializeCell) := by
    show parseRecords
        ((encodeLines (t.cols :: t.rows.map (fun r => r.map serializeCell))).length + 1)
        (encodeLines (t.cols :: t.rows.map (fun r => r.map serializeCell)))
      = t.cols :: t.rows.map (fun r => r.map serializeCell)
    apply parseRecords_spec
    · intro r hr
      rcases List.mem_cons.mp hr with rfl | hr2
      · intro h
        rw [h] at hcols
        simp at hcols
      · obtain ⟨row, hrow, rfl⟩ := List.mem_map.mp hr2
        intro h
        rw [List.map_eq_nil_iff] at h
        subst h
        have := hwf [] hrow
        simp at this
        omega
    · intro r hr
      rcases List.mem_cons.mp hr with rfl | hr2
      · exact encodeRow_ne_nil_of_two hcols
      · obtain ⟨row, hrow, rfl⟩ := List.mem_map.mp hr2
        apply encodeRow_ne_nil_of_two
        rw [List.length_map, hwf row hrow]
        exact hcols
    · have := length_le_encodeLines (t.cols :: t.rows.map (fun r => r.map serializeCell))
      omega
  rw [loadCSV_eq (exportCSV t) t.cols (t.rows.map (fun r => r.map serializeCell)) hparse]
  rw [hct]
  have hraw2 : (t.rows.map (fun r => r.map serializeCell)).map (padTo t.cols.length)
      = t.rows.map (fun r => r.map serializeCell) := by
    rw [List.map_map]
    apply List.map_congr_left
    intro r hr
    show padTo t.cols.length (r.map serializeCell) = r.map serializeCell
    exact padTo_self (by rw [List.length_map, hwf r hr])
  rw [hraw2]
  have hkinds : ∀ j, j < t.cols.length →
      colIsInt ((t.rows.map (fun r => r.map serializeCell)).map (fun r2 => r2.getD j ""))
        = colIsInt ((colVals t j).map serializeCell) := by
    intro j hj
    rw [fields_eq hwf hj]
  cases t with
  | mk cols rows =>
    simp only [Table.mk.injEq, true_and]
    apply List.ext_getElem
    · simp
    · intro i h1 h2
      simp only [List.getElem_map]
      have hrow_len : rows[i].length = cols.length := by
        apply hwf
        exact List.getElem_mem _
      apply List.ext_getElem
      · simp only [List.length_zipWith, List.length_map, List.length_range, hrow_len]
        omega
      · intro j hj1 hj2
        have hjc : j < cols.length := by
          rw [← hrow_len]
          exact hj2
        rw [List.getElem_zipWith]
        have hkj : ∀ (hb : j < ((List.range cols.length).map (fun j =>
            colIsInt ((rows.map (fun r => r.map serializeCell)).map
              (fun r2 => r2.getD j "")))).length),
            ((List.range cols.length).map (fun j =>
              colIsInt ((rows.map (fun r => r.map serializeCell)).map
                (fun r2 => r2.getD j ""))))[j]
              = colIsInt ((colVals ⟨cols, rows⟩ j).map serializeCell) := by
          intro hb
          rw [List.getElem_map, List.getElem_range]
          exact hkinds j hjc
        rw [hkj]
        rw [List.getElem_map]
        have hc := hcan j hjc
        unfold CanonicalCol colOfFields at hc
        have hget := congrArg (fun l => l[i]?) hc
        simp only [List.getElem?_map] at hget
        have hcv : (colVals ⟨cols, rows⟩ j)[i]? = some (cellAt rows[i] j) := by
          unfold colVals
          rw [List.getElem?_map, List.getElem?_eq_getElem h2]
          rfl
        rw [hcv] at hget
        simp only [Option.map_some'] at hget
        have hcell : cellAt rows[i] j = rows[i][j] := by
          unfold cellAt
          rw [List.getD_eq_getElem?_getD, List.getElem?_eq_getElem hj2]
          rfl
        rw [hcell] at hget
        exact Option.some.inj hget

/-! ### The loader's image: well-formed, trimmed, canonical -/

theorem dropWhile_idem {p : Char → Bool} : ∀ (l : List Char),
    (l.dropWhile p).dropWhile p = l.dropWhile p
  | [] => rfl
  | c :: cs => by
    by_cases h : p c = true
    · rw [List.dropWhile_cons, if_pos h]
      exact dropWhile_idem cs
    · rw [List.dropWhile_cons, if_neg h, List.dropWhile_cons, if_neg h]

theorem dropWhile_append_neg {p : Char → Bool} {c : Char} (hc : p c = false) :
    ∀ (xs : List Char), (xs ++ [c]).dropWhile p = xs.dropWhile p ++ [c]
  | [] => by
    rw [List.nil_append, List.dropWhile_cons, if_neg (by rw [hc]; simp)]
    rfl
  | x :: xs => by
    by_cases h : p x = true
    · rw [List.cons_append, List.dropWhile_cons, if_pos h, List.dropWhile_cons, if_pos h]
      exact dropWhile_append_neg hc xs
    · rw [List.cons_append, List.dropWhile_cons, if_neg h, List.dropWhile_cons, if_neg h]
      rw [List.cons_append]

theorem dropWhile_append_ne_nil {p : Char → Bool} :
    ∀ {xs : List Char} (ys : List Char), xs.dropWhile p ≠ [] →
    (xs ++ ys).dropWhile p = xs.dropWhile p ++ ys
  | [], ys, h => absurd rfl h
  | x :: xs, ys, h => by
    by_cases hx : p x = true
    · rw [List.dropWhile_cons, if_pos hx] at h
      rw [List.cons_append, List.dropWhile_cons, if_pos hx, List.dropWhile_cons, if_pos hx]
      exact dropWhile_append_ne_nil ys h
    · rw [List.cons_append, List.dropWhile_cons, if_neg hx, List.dropWhile_cons, if_neg hx]
      rw [List.cons_append]

theorem dropTrail_cons_neg {p : Char → Bool} {c : Char} (hc : p c = false)
    (cs : List Char) : dropTrail p (c :: cs) = c :: dropTrail p cs := by
  unfold dropTrail
  rw [List.reverse_cons, dropWhile_append_neg hc]
  simp

theorem dropTrail_cons_ne_nil {p : Char → Bool} {cs : List Char} (c : Char)
    (h : dropTrail p cs ≠ []) : dropTrail p (c :: cs) = c :: dropTrail p cs := by
  unfold dropTrail at h ⊢
  have h2 : cs.reverse.dropWhile p ≠ [] := by
    intro he
    rw [he] at h
    exact h rfl
  rw [List.reverse_cons, dropWhile_append_ne_nil [c] h2]
  simp

theorem dropTrail_of_all {p : Char → Bool} {l : List Char}
    (h : ∀ x ∈ l, p x = true) : dropTrail p l = [] := by
  unfold dropTrail
  rw [List.dropWhile_eq_nil_iff.mpr (fun x hx => h x (List.mem_reverse.mp hx))]
  rfl

theorem dropTrail_nil_all {p : Char → Bool} {l : List Char}
    (h : dropTrail p l = []) : ∀ x ∈ l, p x = true := by
  unfold dropTrail at h
  have h2 : l.reverse.dropWhile p = [] := by
    cases hx : l.reverse.dropWhile p with
    | nil => rfl
    | cons a as => rw [hx] at h; simp at h
  intro x hx
  exact List.dropWhile_eq_nil_iff.mp h2 x (List.mem_reverse.mpr hx)

theorem dropWhile_dropTrail_comm {p : Char → Bool} : ∀ (z : List Char),
    (dropTrail p z).dropWhile p = dropTrail p (z.dropWhile p)
  | [] => rfl
  | c :: cs => by
    by_cases hp : p c = true
    · by_cases hnil : dropTrail p cs = []
      · have hall : ∀ x ∈ cs, p x = true := dropTrail_nil_all hnil
        have h1 : dropTrail p (c :: cs) = [] :=
          dropTrail_of_all (fun x hx => by
            rcases List.mem_cons.mp hx with rfl | hx2
            · exact hp
            · exact hall x hx2)
        rw [h1]
        rw [List.dropWhile_cons, if_pos hp]
        rw [List.dropWhile_eq_nil_iff.mpr hall]
        rfl
      · rw [dropTrail_cons_ne_nil c hnil, List.dropWhile_cons, if_pos hp]
        rw [List.dropWhile_cons, if_pos hp]
        exact dropWhile_dropTrail_comm cs
    · have hp2 : p c = false := by simpa using hp
      rw [dropTrail_cons_neg hp2, List.dropWhile_cons, if_neg hp]
      rw [List.dropWhile_cons, if_neg hp]
      rw [dropTrail_cons_neg hp2]

theorem dropTrail_idem {p : Char → Bool} (w : List Char) :
    dropTrail p (dropTrail p w) = dropTrail p w := by
  unfold dropTrail
  rw [List.reverse_reverse, dropWhile_idem]

theorem trimChars_idem (cs : List Char) : trimChars (trimChars cs) = trimChars cs := by
  unfold trimChars
  rw [dropWhile_dropTrail_comm, dropWhile_idem, dropTrail_idem]

theorem strTrim_idem (s : String) : strTrim (strTrim s) = strTrim s := by
  show (⟨trimChars (trimChars s.data)⟩ : String) = ⟨trimChars s.data⟩
  rw [trimChars_idem]

theorem loadCSV_empty_case (s : String)
    (h : parseRecords (s.data.length + 1) s.data = []) : loadCSV s = ⟨[], []⟩ := by
  unfold loadCSV
  rw [h]

theorem loadCSV_trimmed (s : String) : ∀ c ∈ (loadCSV s).cols, strTrim c = c := by
  cases hp : parseRecords (s.data.length + 1) s.data with
  | nil =>
    rw [loadCSV_empty_case s hp]
    intro c hc
    exact absurd hc (List.not_mem_nil c)
  | cons header raw =>
    rw [loadCSV_eq s header raw hp]
    intro c hc
    obtain ⟨x, _, rfl⟩ := List.mem_map.mp hc
    exact strTrim_idem x

theorem loadCSV_WF (s : String) : (loadCSV s).WF := by
  cases hp : parseRecords (s.data.length + 1) s.data with
  | nil =>
    rw [loadCSV_empty_case s hp]
    intro r hr
    exact absurd hr (List.not_mem_nil r)
  | cons header raw =>
    rw [loadCSV_eq s header raw hp]
    intro r hr
    obtain ⟨r2, hr2, rfl⟩ := List.mem_map.mp hr
    obtain ⟨r3, _, rfl⟩ := List.mem_map.mp hr2
    simp only [List.length_zipWith, List.length_map, List.length_range, padTo_length]
    omega

theorem getD_map_range {g : Nat → Bool} {n j : Nat} (h : j < n) :
    ((List.range n).map g).getD j false = g j := by
  rw [List.getD_eq_getElem?_getD, List.getElem?_map, List.getElem?_range h]
  rfl

theorem cellAt_zipWith {ks : List Bool} {fs : List String} {j : Nat}
    (h1 : j < ks.length) (h2 : j < fs.length) :
    cellAt (List.zipWith cellOfField ks fs) j
      = cellOfField (ks.getD j false) (fs.getD j "") := by
  unfold cellAt
  rw [List.getD_eq_getElem?_getD, List.getElem?_zipWith,
    List.getElem?_eq_getElem h1, List.getElem?_eq_getElem h2]
  rw [List.getD_eq_getElem?_getD, List.getElem?_eq_getElem h1]
  rw [List.getD_eq_getElem?_getD, List.getElem?_eq_getElem h2]
  rfl

theorem loadCSV_canonical (s : String) : (loadCSV s).Canonical := by
  cases hp : parseRecords (s.data.length + 1) s.data with
  | nil =>
    rw [loadCSV_empty_case s hp]
    intro j hj
    simp at hj
  | cons header raw =>
    rw [loadCSV_eq s header raw hp]
    intro j hj
    simp only [List.length_map] at hj
    have hcv : colVals ⟨header.map strTrim,
        (raw.map (padTo (header.map strTrim).length)).map (fun r =>
          List.zipWith cellOfField
            ((List.range (header.map strTrim).length).map (fun j2 =>
              colIsInt ((raw.map (padTo (header.map strTrim).length)).map
                (fun r2 => r2.getD j2 ""))))
            r)⟩ j
        = colOfFields ((raw.map (padTo (header.map strTrim).length)).map
            (fun r2 => r2.getD j "")) := by
      unfold colVals colOfFields
      simp only [List.map_map]
      apply List.map_congr_left
      intro r hr
      show cellAt (List.zipWith cellOfField _ (padTo (header.map strTrim).length r)) j
        = cellOfField _ ((padTo (header.map strTrim).length r).getD j "")
      rw [cellAt_zipWith (by simpa using hj) (by rw [padTo_length]; simpa using hj)]
      rw [getD_map_range (by simpa using hj)]
    rw [hcv]
    exact colOfFields_canonical _

theorem Canonical_setCol {t : Table} {c : String} {vs : List Value} (hwf : t.WF)
    (hlen : vs.length = t.rows.length) (hcan : t.Canonical) (hv : CanonicalCol vs) :
    (t.setCol c vs).Canonical := by
  unfold Table.setCol
  cases hi : colIdx t.cols c with
  | some i =>
    intro j hj
    by_cases hij : i = j
    · subst hij
      have hcol : colVals ⟨t.cols, (t.rows.zip vs).map (fun p => p.1.set i p.2)⟩ i = vs := by
        unfold colVals
        exact zipSetMap_get
          (fun r hr => by rw [hwf r hr]; exact colIdx_lt_length hi) hlen
      rw [hcol]
      exact hv
    · have hcol : colVals ⟨t.cols, (t.rows.zip vs).map (fun p => p.1.set i p.2)⟩ j
          = colVals t j := by
        unfold colVals
        exact zipSetMap_other hij hlen
      rw [hcol]
      exact hcan j hj
  | none =>
    intro j hj
    simp only [List.length_append, List.length_cons, List.length_nil] at hj
    by_cases hjn : j = t.cols.length
    · subst hjn
      have hcol : colVals ⟨t.cols ++ [c], (t.rows.zip vs).map (fun p => p.1 ++ [p.2])⟩
          t.cols.length = vs := by
        unfold colVals
        exact zipAppendMap_get (fun r hr => hwf r hr) hlen
      rw [hcol]
      exact hv
    · have hjlt : j < t.cols.length := by omega
      have hcol : colVals ⟨t.cols ++ [c], (t.rows.zip vs).map (fun p => p.1 ++ [p.2])⟩ j
          = colVals t j := by
        unfold colVals
        exact zipAppendMap_other (fun r hr => by rw [hwf r hr]; exact hjlt) hlen
      rw [hcol]
      exact hcan j hjlt

theorem trimmed_setCol {t : Table} {c : String} {vs : List Value}
    (ht : ∀ x ∈ t.cols, strTrim x = x) (hc : strTrim c = c) :
    ∀ x ∈ (t.setCol c vs).cols, strTrim x = x := by
  unfold Table.setCol
  cases hi : colIdx t.cols c with
  | some i => exact ht
  | none =>
    intro x hx
    rcases List.mem_append.mp hx with h1 | h2
    · exact ht x h1
    · rw [List.mem_singleton] at h2
      subst h2
      exact hc

theorem deriveAttritionBool_canonical {t : Table} (hwf : t.WF) (hcan : t.Canonical) :
    (deriveAttritionBool t).Canonical := by
  unfold deriveAttritionBool
  by_cases h : t.hasCol "Attrition_bool" = true
  · rw [if_pos h]; exact hcan
  · rw [if_neg h]
    by_cases ha : t.hasCol "Attrition" = true
    · rw [if_pos ha]
      apply Canonical_setCol hwf (by simp [getCol_length ha]) hcan
      apply intCol_canonical
      intro v hv
      obtain ⟨w, _, rfl⟩ := List.mem_map.mp hv
      exact Or.inr ⟨_, rfl⟩
    · rw [if_neg ha]
      apply Canonical_setCol hwf (by simp) hcan
      apply intCol_canonical
      intro v hv
      rw [List.eq_of_mem_replicate hv]
      exact Or.inr ⟨0, rfl⟩

theorem deriveAttritionBool_trimmed {t : Table} (ht : ∀ x ∈ t.cols, strTrim x = x) :
    ∀ x ∈ (deriveAttritionBool t).cols, strTrim x = x := by
  unfold deriveAttritionBool
  by_cases h : t.hasCol "Attrition_bool" = true
  · rw [if_pos h]; exact ht
  · rw [if_neg h]
    by_cases ha : t.hasCol "Attrition" = true
    · rw [if_pos ha]
      exact trimmed_setCol ht (by decide)
    · rw [if_neg ha]
      exact trimmed_setCol ht (by decide)

theorem bucketOfAge_shape (a : Int) : bucketOfAge a = Value.vNone
    ∨ ∃ s, bucketOfAge a = Value.vStr s ∧ isNA s = false ∧ isIntField s = false := by
  unfold bucketOfAge
  split_ifs <;> first
    | exact Or.inl rfl
    | exact Or.inr ⟨_, rfl, by decide, by decide⟩

theorem deriveAgeBucket_canonical {t : Table} (hwf : t.WF) (hcan : t.Canonical) :
    (deriveAgeBucket t).Canonical := by
  unfold deriveAgeBucket
  by_cases h : t.hasCol "Age" = true
  · rw [if_pos h]
    by_cases hn : (t.getCol "Age").all isNumCell = true
    · rw [if_pos hn]
      apply Canonical_setCol hwf (by simp [getCol_length h]) hcan
      apply strCol_canonical
      intro v hv
      obtain ⟨w, _, rfl⟩ := List.mem_map.mp hv
      exact bucketOfAge_shape (ageCell w)
    · rw [if_neg hn]
      apply Canonical_setCol hwf (by simp [getCol_length h]) hcan
      apply intCol_canonical
      intro v hv
      obtain ⟨w, _, rfl⟩ := List.mem_map.mp hv
      exact Or.inl rfl
  · rw [if_neg h]; exact hcan

theorem deriveAgeBucket_trimmed {t : Table} (ht : ∀ x ∈ t.cols, strTrim x = x) :
    ∀ x ∈ (deriveAgeBucket t).cols, strTrim x = x := by
  unfold deriveAgeBucket
  by_cases h : t.hasCol "Age" = true
  · rw [if_pos h]
    by_cases hn : (t.getCol "Age").all isNumCell = true
    · rw [if_pos hn]
      exact trimmed_setCol ht (by decide)
    · rw [if_neg hn]
      exact trimmed_setCol ht (by decide)
  · rw [if_neg h]; exact ht

theorem derive_WF {t : Table} (hwf : t.WF) : (derive t).WF :=
  deriveAgeBucket_WF (deriveAttritionBool_WF hwf)

theorem derive_canonical {t : Table} (hwf : t.WF) (hcan : t.Canonical) :
    (derive t).Canonical :=
  deriveAgeBucket_canonical (deriveAttritionBool_WF hwf)
    (deriveAttritionBool_canonical hwf hcan)

theorem derive_trimmed {t : Table} (ht : ∀ x ∈ t.cols, strTrim x = x) :
    ∀ x ∈ (derive t).cols, strTrim x = x :=
  deriveAgeBucket_trimmed (deriveAttritionBool_trimmed ht)

/-! ### The claims -/

/-- Modelled from the spec's words for claim C2: the number of records
whose attrition flag is true (a flag value of 1). -/
def specFlagTrueCount (t : Table) : Nat :=
  ((t.getCol "Attrition_bool").filter (fun v => v = Value.vInt 1)).length

theorem sum_eq_count_ones : ∀ (l : List Value),
    (∀ v ∈ l, v = Value.vInt 0 ∨ v = Value.vInt 1) →
    (l.map valInt).sum = ((l.filter (fun v => v = Value.vInt 1)).length : Int)
  | [], _ => rfl
  | v :: l, h => by
    have htail := sum_eq_count_ones l (fun x hx => h x (List.mem_cons_of_mem v hx))
    rcases h v (List.mem_cons_self v l) with rfl | rfl
    · rw [List.map_cons, List.sum_cons, htail, List.filter_cons, if_neg (by decide)]
      show (0 : Int) + _ = _
      omega
    · rw [List.map_cons, List.sum_cons, htail, List.filter_cons, if_pos (by decide)]
      rw [List.length_cons]
      show (1 : Int) + _ = _
      push_cast
      omega

/-- C1 (counterexample): the claim fails as stated.  A loaded table may
already carry an `Attrition_bool` column; lines 76-80 then leave it
untouched, so a record with raw `Attrition` = "yes" can keep flag 0. -/
theorem c1_counterexample :
    ¬ (∀ t : Table, (deriveAttritionBool t).getCol "Attrition_bool"
        = (if t.hasCol "Attrition" then
             (t.getCol "Attrition").map (fun v => Value.vInt (truthyFlag v))
           else List.replicate t.rows.length (Value.vInt 0))) := by
  intro h
  have h2 := h ⟨["Attrition", "Attrition_bool"], [[Value.vStr "yes", Value.vInt 0]]⟩
  revert h2
  decide

/-- C1 (amended): for every well-formed table that does not already
contain an `Attrition_bool` column, the derived flag column is the
truthy-set map of the raw `Attrition` column when that column exists,
and the all-zero column otherwise; the flag of a cell is 1 exactly when
its normalised text is in {"yes","y","true","1"} and 0 otherwise.  The
derivation is a total function, so no error is raised. -/
theorem c1_attrition_flag (t : Table) (hwf : t.WF)
    (h : t.hasCol "Attrition_bool" = false) :
    (deriveAttritionBool t).getCol "Attrition_bool"
      = (if t.hasCol "Attrition" then
           (t.getCol "Attrition").map (fun v => Value.vInt (truthyFlag v))
         else List.replicate t.rows.length (Value.vInt 0))
    ∧ ∀ v : Value,
        (truthyFlag v = 1 ↔ truthyStrings.contains (normStr (pyStr v)) = true)
        ∧ (truthyFlag v = 0 ↔ ¬ truthyStrings.contains (normStr (pyStr v)) = true) := by
  constructor
  · exact deriveAttritionBool_getFlag_of_absent hwf h
  · intro v
    unfold truthyFlag
    split_ifs with hc
    · exact ⟨⟨fun _ => hc, fun _ => rfl⟩,
        ⟨fun h1 => absurd h1 one_ne_zero, fun hn => absurd hc hn⟩⟩
    · exact ⟨⟨fun h0 => absurd h0 zero_ne_one, fun hcc => absurd hcc hc⟩,
        ⟨fun _ => hc, fun _ => rfl⟩⟩

theorem c1_witness :
    ((⟨["Attrition"], [[Value.vStr " Yes "], [Value.vStr "no"]]⟩ : Table).WF
      ∧ (⟨["Attrition"], [[Value.vStr " Yes "], [Value.vStr "no"]]⟩
          : Table).hasCol "Attrition_bool" = false)
    ∧ ((deriveAttritionBool ⟨["Attrition"], [[Value.vStr " Yes "], [Value.vStr "no"]]⟩
          ).getCol "Attrition_bool"
        = (if (⟨["Attrition"], [[Value.vStr " Yes "], [Value.vStr "no"]]⟩
              : Table).hasCol "Attrition" then
             ((⟨["Attrition"], [[Value.vStr " Yes "], [Value.vStr "no"]]⟩
               : Table).getCol "Attrition").map (fun v => Value.vInt (truthyFlag v))
           else List.replicate 2 (Value.vInt 0))
      ∧ ∀ v : Value,
          (truthyFlag v = 1 ↔ truthyStrings.contains (normStr (pyStr v)) = true)
          ∧ (truthyFlag v = 0 ↔ ¬ truthyStrings.contains (normStr (pyStr v)) = true)) :=
  ⟨⟨by decide, by decide⟩,
    c1_attrition_flag ⟨["Attrition"], [[Value.vStr " Yes "], [Value.vStr "no"]]⟩
      (by decide) (by decide)⟩

/-- C2 (counterexample): the claim fails as stated.  A loaded table may
carry a caller-supplied `Attrition_bool` column with values outside
{0,1}; `attrition_count` (line 92) sums the column, which then differs
from the number of records whose flag is true. -/
theorem c2_counterexample :
    ¬ (∀ t : Table, attrition_count t = (specFlagTrueCount t : Int)) := by
  intro h
  have h2 := h ⟨["Attrition_bool"], [[Value.vInt 5]]⟩
  revert h2
  decide

/-- C2 (amended): for every table whose attrition-flag values are all 0
or 1 — in particular any table whose flag column was produced by the
derivation step from a raw `Attrition` column — `attrition_count`
equals the number of records whose flag is true, and `attrition_rate`
is `round(100 * count / total, 1)` for a non-empty table and 0 for an
empty one.  In particular the derived 20-record table with exactly 5
`Attrition` = "Yes" records has count 5 and rate 25.0. -/
theorem c2_attrition_kpis (t : Table)
    (hflags : ∀ v ∈ t.getCol "Attrition_bool",
      v = Value.vInt 0 ∨ v = Value.vInt 1) :
    attrition_count t = (specFlagTrueCount t : Int)
    ∧ attrition_rate t
        = (if t.rows.length ≠ 0
           then pyRound1 (100 * attrition_count t / (t.rows.length : ℚ)) else 0)
    ∧ attrition_count (derive ⟨["Attrition"],
        List.replicate 5 [Value.vStr "Yes"] ++ List.replicate 15 [Value.vStr "No"]⟩) = 5
    ∧ attrition_rate (derive ⟨["Attrition"],
        List.replicate 5 [Value.vStr "Yes"] ++ List.replicate 15 [Value.vStr "No"]⟩) = 25 := by
  refine ⟨?_, rfl, ?_, ?_⟩
  · unfold attrition_count specFlagTrueCount
    by_cases h : t.hasCol "Attrition_bool" = true
    · rw [if_pos h]
      exact sum_eq_count_ones _ hflags
    · rw [if_neg h]
      rw [getCol_absent (by simpa using h)]
      rfl
  · decide
  · have hc : attrition_count (derive ⟨["Attrition"],
        List.replicate 5 [Value.vStr "Yes"] ++ List.replicate 15 [Value.vStr "No"]⟩)
        = 5 := by decide
    have hl : (derive ⟨["Attrition"],
        List.replicate 5 [Value.vStr "Yes"] ++ List.replicate 15 [Value.vStr "No"]⟩
        ).rows.length = 20 := by decide
    unfold attrition_rate
    rw [hc, hl, if_pos (by norm_num)]
    have h1 : (100 * ((5 : Int) : ℚ) / ((20 : Nat) : ℚ)) = 25 := by norm_num
    rw [h1]
    unfold pyRound1 roundHalfEven
    have h2 : ((25 : ℚ) * 10) = 250 := by norm_num
    rw [h2]
    have h3 : ⌊(250 : ℚ)⌋ = 250 := by norm_num
    rw [h3]
    rw [if_pos (by norm_num)]
    norm_num

theorem c2_witness :
    (∀ v ∈ ((derive ⟨["Attrition"],
        List.replicate 5 [Value.vStr "Yes"] ++ List.replicate 15 [Value.vStr "No"]⟩
        ).getCol "Attrition_bool"),
      v = Value.vInt 0 ∨ v = Value.vInt 1)
    ∧ attrition_count (derive ⟨["Attrition"],
        List.replicate 5 [Value.vStr "Yes"] ++ List.replicate 15 [Value.vStr "No"]⟩)
      = (specFlagTrueCount (derive ⟨["Attrition"],
          List.replicate 5 [Value.vStr "Yes"] ++ List.replicate 15 [Value.vStr "No"]⟩) : Int) :=
  ⟨by decide,
    (c2_attrition_kpis (derive ⟨["Attrition"],
      List.replicate 5 [Value.vStr "Yes"] ++ List.replicate 15 [Value.vStr "No"]⟩)
      (by decide)).1⟩

/-- C3 (counterexample): the claim fails as stated.  With
`include_lowest=True` and bins starting at 17 (line 85-87), age 17 —
an age below 18 — is placed in the "18-25" band rather than mapped to
no bucket. -/
theorem c3_counterexample :
    ¬ (∀ a : Int, a < 18 → bucketOfAge a = Value.vNone) := by
  intro h
  exact absurd (h 17 (by decide)) (by decide)

/-- C3 (amended): bucketing is total (never raises) and, for a
well-formed table, idempotent under re-application; every age in
[17,100] falls in exactly one of the five distinct bands (the function
returns a single bucket), every age below 17 or above 100 falls in no
bucket, and a missing age (sentinel -1 after `fillna`) falls in no
bucket.  Only the claim's boundary is corrected: age 17, although
below 18, is bucketed into "18-25" because the lowest bound 17 is
inclusive. -/
theorem c3_age_bucketing (t : Table) (hwf : t.WF) :
    (∀ a : Int, 17 ≤ a → a ≤ 100 → ∃ s ∈ ageBands, bucketOfAge a = Value.vStr s)
    ∧ (∀ a : Int, a < 17 ∨ 100 < a → bucketOfAge a = Value.vNone)
    ∧ bucketOfAge (ageCell Value.vNone) = Value.vNone
    ∧ ageBands.Nodup
    ∧ deriveAgeBucket (deriveAgeBucket t) = deriveAgeBucket t := by
  refine ⟨?_, ?_, by decide, by decide, deriveAgeBucket_idem hwf⟩
  · intro a h1 h2
    unfold bucketOfAge
    split_ifs with c1 c2 c3 c4 c5
    · exact ⟨"18-25", by decide, rfl⟩
    · exact ⟨"26-35", by decide, rfl⟩
    · exact ⟨"36-45", by decide, rfl⟩
    · exact ⟨"46-55", by decide, rfl⟩
    · exact ⟨"55+", by decide, rfl⟩
    · omega
  · intro a h
    unfold bucketOfAge
    split_ifs with c1 c2 c3 c4 c5
    · omega
    · omega
    · omega
    · omega
    · omega
    · rfl

theorem c3_witness :
    (⟨["Age"], [[Value.vInt 40], [Value.vNone]]⟩ : Table).WF
    ∧ deriveAgeBucket (deriveAgeBucket ⟨["Age"], [[Value.vInt 40], [Value.vNone]]⟩)
        = deriveAgeBucket ⟨["Age"], [[Value.vInt 40], [Value.vNone]]⟩ :=
  ⟨by decide,
    (c3_age_bucketing ⟨["Age"], [[Value.vInt 40], [Value.vNone]]⟩ (by decide)).2.2.2.2⟩

/-- Modelled from the spec's words for claim C4: the group keys of a
dimension, in the table's natural first-occurrence order, that attain
the maximum attrition rate. -/
def specMaxTies (t : Table) (dim : String) : List Value :=
  let ks := dedupFirst ((t.getCol dim).filter (fun v => v != Value.vNone))
  ks.filter (fun k => ks.all (fun k2 =>
    (groupRowFor t dim k2).rate.getD 0 ≤ (groupRowFor t dim k).rate.getD 0))

/-- C4 (counterexample): the claim fails as stated.  `groupby` sorts the
group keys, so `idxmax` breaks ties by the smallest key in sorted
order, not by first encounter: in a table whose rows list department
"Zeta" before "Alpha" with both at rate 100, the reported top key is
"Alpha" although "Zeta" is encountered first. -/
theorem c4_counterexample :
    ¬ (∀ (t : Table) (dim : String), 2 ≤ (specMaxTies t dim).length →
        (specMaxTies t dim).head? = some (groupRisk t dim).2) := by
  intro hclaim
  have hrZ : (groupRowFor ⟨["Department", "Attrition_bool"],
      [[Value.vStr "Zeta", Value.vInt 1], [Value.vStr "Alpha", Value.vInt 1]]⟩
      "Department" (Value.vStr "Zeta")).rate = some 100 := by
    have h0 : (groupRowFor ⟨["Department", "Attrition_bool"],
        [[Value.vStr "Zeta", Value.vInt 1], [Value.vStr "Alpha", Value.vInt 1]]⟩
        "Department" (Value.vStr "Zeta")).rate
        = some (100 * ((1 : Int) : ℚ) / ((1 : Nat) : ℚ)) := rfl
    rw [h0]
    exact congrArg some (by norm_num)
  have hrA : (groupRowFor ⟨["Department", "Attrition_bool"],
      [[Value.vStr "Zeta", Value.vInt 1], [Value.vStr "Alpha", Value.vInt 1]]⟩
      "Department" (Value.vStr "Alpha")).rate = some 100 := by
    have h0 : (groupRowFor ⟨["Department", "Attrition_bool"],
        [[Value.vStr "Zeta", Value.vInt 1], [Value.vStr "Alpha", Value.vInt 1]]⟩
        "Department" (Value.vStr "Alpha")).rate
        = some (100 * ((1 : Int) : ℚ) / ((1 : Nat) : ℚ)) := rfl
    rw [h0]
    exact congrArg some (by norm_num)
  have hdec : decide ((100 : ℚ) ≤ 100) = true := decide_eq_true (le_refl _)
  have hties : specMaxTies ⟨["Department", "Attrition_bool"],
      [[Value.vStr "Zeta", Value.vInt 1], [Value.vStr "Alpha", Value.vInt 1]]⟩
      "Department" = [Value.vStr "Zeta", Value.vStr "Alpha"] := by
    show ([Value.vStr "Zeta", Value.vStr "Alpha"].filter (fun k =>
        [Value.vStr "Zeta", Value.vStr "Alpha"].all (fun k2 =>
          (groupRowFor ⟨["Department", "Attrition_bool"],
            [[Value.vStr "Zeta", Value.vInt 1], [Value.vStr "Alpha", Value.vInt 1]]⟩
            "Department" k2).rate.getD 0
          ≤ (groupRowFor ⟨["Department", "Attrition_bool"],
            [[Value.vStr "Zeta", Value.vInt 1], [Value.vStr "Alpha", Value.vInt 1]]⟩
            "Department" k).rate.getD 0)))
      = [Value.vStr "Zeta", Value.vStr "Alpha"]
    simp only [List.filter_cons, List.filter_nil, List.all_cons, List.all_nil, hrZ, hrA,
        Option.getD_some, hdec, Bool.and_true, Bool.true_and]
    rfl
  have hbr : bestRow ((sortedKeys ⟨["Department", "Attrition_bool"],
      [[Value.vStr "Zeta", Value.vInt 1], [Value.vStr "Alpha", Value.vInt 1]]⟩
      "Department").map (groupRowFor ⟨["Department", "Attrition_bool"],
      [[Value.vStr "Zeta", Value.vInt 1], [Value.vStr "Alpha", Value.vInt 1]]⟩
      "Department"))
      = some (bestOf [groupRowFor ⟨["Department", "Attrition_bool"],
          [[Value.vStr "Zeta", Value.vInt 1], [Value.vStr "Alpha", Value.vInt 1]]⟩
          "Department" (Value.vStr "Zeta")]
        (groupRowFor ⟨["Department", "Attrition_bool"],
          [[Value.vStr "Zeta", Value.vInt 1], [Value.vStr "Alpha", Value.vInt 1]]⟩
          "Department" (Value.vStr "Alpha"))) := rfl
  have hno : ¬ ((groupRowFor ⟨["Department", "Attrition_bool"],
      [[Value.vStr "Zeta", Value.vInt 1], [Value.vStr "Alpha", Value.vInt 1]]⟩
      "Department" (Value.vStr "Alpha")).rate.getD 0
      < (groupRowFor ⟨["Department", "Attrition_bool"],
      [[Value.vStr "Zeta", Value.vInt 1], [Value.vStr "Alpha", Value.vInt 1]]⟩
      "Department" (Value.vStr "Zeta")).rate.getD 0) := by
    rw [hrZ, hrA]
    simp
  have hgr : groupRisk ⟨["Department", "Attrition_bool"],
      [[Value.vStr "Zeta", Value.vInt 1], [Value.vStr "Alpha", Value.vInt 1]]⟩
      "Department"
      = ((sortedKeys ⟨["Department", "Attrition_bool"],
          [[Value.vStr "Zeta", Value.vInt 1], [Value.vStr "Alpha", Value.vInt 1]]⟩
          "Department").map (groupRowFor ⟨["Department", "Attrition_bool"],
          [[Value.vStr "Zeta", Value.vInt 1], [Value.vStr "Alpha", Value.vInt 1]]⟩
          "Department"),
         (bestOf [groupRowFor ⟨["Department", "Attrition_bool"],
            [[Value.vStr "Zeta", Value.vInt 1], [Value.vStr "Alpha", Value.vInt 1]]⟩
            "Department" (Value.vStr "Zeta")]
          (groupRowFor ⟨["Department", "Attrition_bool"],
            [[Value.vStr "Zeta", Value.vInt 1], [Value.vStr "Alpha", Value.vInt 1]]⟩
            "Department" (Value.vStr "Alpha"))).key) := by
    unfold groupRisk
    rw [if_pos ⟨by decide, by decide⟩, if_pos (by decide), hbr]
  have htop : (groupRisk ⟨["Department", "Attrition_bool"],
      [[Value.vStr "Zeta", Value.vInt 1], [Value.vStr "Alpha", Value.vInt 1]]⟩
      "Department").2 = Value.vStr "Alpha" := by
    rw [hgr]
    show (bestOf [groupRowFor ⟨["Department", "Attrition_bool"],
        [[Value.vStr "Zeta", Value.vInt 1], [Value.vStr "Alpha", Value.vInt 1]]⟩
        "Department" (Value.vStr "Zeta")]
      (groupRowFor ⟨["Department", "Attrition_bool"],
        [[Value.vStr "Zeta", Value.vInt 1], [Value.vStr "Alpha", Value.vInt 1]]⟩
        "Department" (Value.vStr "Alpha"))).key = Value.vStr "Alpha"
    unfold bestOf
    rw [if_neg hno]
    rfl
  have h2 := hclaim ⟨["Department", "Attrition_bool"],
      [[Value.vStr "Zeta", Value.vInt 1], [Value.vStr "Alpha", Value.vInt 1]]⟩
      "Department" (by rw [hties]; decide)
  rw [hties, htop] at h2
  exact absurd h2 (by decide)

/-- C4 (amended): the selection is deterministic (a pure function of the
table), the reported top-risk key is the key of a group attaining the
maximum rate among the groups whose rate is not NaN, and ties are
broken by the smallest key in `groupby`'s sorted key order (the first
the `idxmax` scan encounters), not by first-occurrence row order. -/
theorem c4_top_risk_tiebreak (t : Table) (dim : String)
    (hne : (groupRisk t dim).1 ≠ []) :
    ∃ g ∈ (groupRisk t dim).1,
      g.key = (groupRisk t dim).2 ∧ g.rate.isSome = true ∧
      (∀ g2 ∈ (groupRisk t dim).1, ∀ r2 r : ℚ,
        g2.rate = some r2 → g.rate = some r → r2 ≤ r) ∧
      (∀ g2 ∈ (groupRisk t dim).1, g2.rate = g.rate → keyLe g.key g2.key) := by
  by_cases hc : t.hasCol dim = true ∧ t.hasCol "Attrition_bool" = true
  case neg =>
    exfalso
    apply hne
    unfold groupRisk
    rw [if_neg hc]
  by_cases hs : (dimFlagPairs t dim).all
      (fun p => p.1 == Value.vNone || !(isStrCell p.2)) = true
  case neg =>
    exfalso
    apply hne
    unfold groupRisk
    rw [if_pos hc, if_neg hs]
  cases hm : bestRow ((sortedKeys t dim).map (groupRowFor t dim)) with
  | none =>
    exfalso
    apply hne
    unfold groupRisk
    rw [if_pos hc, if_pos hs, hm]
  | some g0 =>
    have hgr : groupRisk t dim
        = ((sortedKeys t dim).map (groupRowFor t dim), g0.key) := by
      unfold groupRisk
      rw [if_pos hc, if_pos hs, hm]
    rw [hgr]
    unfold bestRow at hm
    cases hf : ((sortedKeys t dim).map (groupRowFor t dim)).filter
        (fun g => g.rate.isSome) with
    | nil =>
      rw [hf] at hm
      cases hm
    | cons fg fgs =>
      rw [hf] at hm
      have hg0 : g0 = bestOf fgs fg := (Option.some.inj hm).symm
      subst hg0
      have hmemf : bestOf fgs fg ∈ ((sortedKeys t dim).map (groupRowFor t dim)).filter
          (fun g => g.rate.isSome) := by
        rw [hf]
        exact bestOf_mem_cons fgs fg
      have hsome : (bestOf fgs fg).rate.isSome = true := (List.mem_filter.mp hmemf).2
      have hmemrows : bestOf fgs fg ∈ (sortedKeys t dim).map (groupRowFor t dim) :=
        List.mem_of_mem_filter hmemf
      have hpairrows : ((sortedKeys t dim).map (groupRowFor t dim)).Pairwise
          (fun x y => keyLe x.key y.key) := by
        rw [List.pairwise_map]
        exact List.sorted_insertionSort keyLe _
      have hpair : (fg :: fgs).Pairwise (fun x y => keyLe x.key y.key) := by
        rw [← hf]
        exact hpairrows.sublist (List.filter_sublist _)
      refine ⟨bestOf fgs fg, hmemrows, rfl, hsome, ?_, ?_⟩
      · intro g2 hg2 r2 r h2 hr
        have hg2f : g2 ∈ fg :: fgs := by
          rw [← hf]
          exact List.mem_filter.mpr ⟨hg2, by rw [h2]; rfl⟩
        have hle : g2.rate.getD 0 ≤ (bestOf fgs fg).rate.getD 0 := by
          rcases List.mem_cons.mp hg2f with rfl | hin
          · exact bestOf_base_le fgs g2
          · exact bestOf_mem_le fgs fg g2 hin
        rw [h2, hr] at hle
        simpa using hle
      · intro g2 hg2 heq
        have hg2some : g2.rate.isSome = true := by
          rw [heq]
          exact hsome
        have hg2f : g2 ∈ fg :: fgs := by
          rw [← hf]
          exact List.mem_filter.mpr ⟨hg2, hg2some⟩
        exact bestOf_key_min fgs fg hpair g2 hg2f (by rw [heq])

theorem c4_witness :
    ∃ g ∈ (groupRisk ⟨["Department", "Attrition_bool"],
        [[Value.vStr "Sales", Value.vInt 1], [Value.vStr "HR", Value.vInt 0]]⟩
        "Department").1,
      g.key = (groupRisk ⟨["Department", "Attrition_bool"],
        [[Value.vStr "Sales", Value.vInt 1], [Value.vStr "HR", Value.vInt 0]]⟩
        "Department").2 ∧ g.rate.isSome = true ∧
      (∀ g2 ∈ (groupRisk ⟨["Department", "Attrition_bool"],
        [[Value.vStr "Sales", Value.vInt 1], [Value.vStr "HR", Value.vInt 0]]⟩
        "Department").1, ∀ r2 r : ℚ,
        g2.rate = some r2 → g.rate = some r → r2 ≤ r) ∧
      (∀ g2 ∈ (groupRisk ⟨["Department", "Attrition_bool"],
        [[Value.vStr "Sales", Value.vInt 1], [Value.vStr "HR", Value.vInt 0]]⟩
        "Department").1, g2.rate = g.rate → keyLe g.key g2.key) :=
  c4_top_risk_tiebreak ⟨["Department", "Attrition_bool"],
    [[Value.vStr "Sales", Value.vInt 1], [Value.vStr "HR", Value.vInt 0]]⟩
    "Department" (by decide)

/-- C5: when the grouping dimension column or the flag column is absent,
or the grouping computation fails — a string flag on a row with a
non-missing key makes the aggregation or `100*left/total` raise
(line 106), and an all-NaN rate column makes `idxmax` raise (line 108),
both caught by the `except` into the sentinel, while an empty group
frame skips `idxmax` (line 107) with the same result — the risk grouper
returns the empty group set and the "N/A" sentinel; in particular a
table with no "JobRole" column yields empty job-role groups and top
key "N/A". -/
theorem c5_risk_grouper_sentinel (t : Table) (dim : String)
    (h : t.hasCol dim = false ∨ t.hasCol "Attrition_bool" = false ∨
         (dimFlagPairs t dim).all (fun p => p.1 == Value.vNone || !(isStrCell p.2)) = false ∨
         bestRow ((sortedKeys t dim).map (groupRowFor t dim)) = none) :
    groupRisk t dim = ([], Value.vStr "N/A") := by
  unfold groupRisk
  by_cases hc : t.hasCol dim = true ∧ t.hasCol "Attrition_bool" = true
  · rcases h with h1 | h1 | h1 | h1
    · exact absurd (h1 ▸ hc.1) Bool.false_ne_true
    · exact absurd (h1 ▸ hc.2) Bool.false_ne_true
    · rw [if_pos hc, if_neg (by rw [h1]; exact Bool.false_ne_true)]
    · rw [if_pos hc]
      by_cases hg : (dimFlagPairs t dim).all
          (fun p => p.1 == Value.vNone || !(isStrCell p.2)) = true
      · rw [if_pos hg, h1]
      · rw [if_neg hg]
  · rw [if_neg hc]

theorem c5_witness :
    groupRisk ⟨["Attrition_bool"], [[Value.vInt 0]]⟩ "JobRole" = ([], Value.vStr "N/A") :=
  c5_risk_grouper_sentinel ⟨["Attrition_bool"], [[Value.vInt 0]]⟩ "JobRole"
    (Or.inl (by decide))

/-- C6: the predictor's selected feature list is the fixed ordered
candidate list filtered to the table's columns — a sublist of the
candidates containing exactly the candidates present in the table — and
the build reports `insufficient` (performing no training) exactly when
that list is empty. -/
theorem c6_feature_selection (t : Table) :
    (selectedFeatures t).Sublist candidateFeatures ∧
    (∀ c, c ∈ selectedFeatures t ↔ c ∈ candidateFeatures ∧ t.hasCol c = true) ∧
    (buildPredictor t = .insufficient ↔ selectedFeatures t = []) := by
  have hb : buildPredictor t =
      (if (selectedFeatures t).isEmpty then PredictorOutcome.insufficient
       else if 1 < targetClassCount t ∧ 10 ≤ t.rows.length then
         .holdout (selectedFeatures t) ⟨1/5, 42, true⟩
       else .degenerate (selectedFeatures t) (projRows t (selectedFeatures t))
         (projRows t (selectedFeatures t))) := rfl
  refine ⟨List.filter_sublist _, fun c => List.mem_filter, ?_⟩
  rw [hb]
  by_cases he : (selectedFeatures t).isEmpty = true
  · rw [if_pos he]
    simp [List.isEmpty_iff.mp he]
  · rw [if_neg he]
    constructor
    · intro h
      by_cases hs : 1 < targetClassCount t ∧ 10 ≤ t.rows.length
      · rw [if_pos hs] at h
        exact absurd h (by intro hh; cases hh)
      · rw [if_neg hs] at h
        exact absurd h (by intro hh; cases hh)
    · intro h
      exact absurd (by rw [h]; rfl : (selectedFeatures t).isEmpty = true) he

/-- C7: once at least one feature is selected, the predictor performs
the stratified 80/20 fixed-seed holdout split exactly when the target
has at least two distinct classes and the table has at least 10
records; otherwise it trains and evaluates on the same full projected
table, and the fitted model still yields a probability in [0,1] for any
input. -/
theorem c7_split_policy (t : Table) (hf : selectedFeatures t ≠ []) :
    (buildPredictor t = .holdout (selectedFeatures t) ⟨1/5, 42, true⟩ ↔
      (1 < targetClassCount t ∧ 10 ≤ t.rows.length)) ∧
    (¬ (1 < targetClassCount t ∧ 10 ≤ t.rows.length) →
      buildPredictor t = .degenerate (selectedFeatures t)
        (projRows t (selectedFeatures t)) (projRows t (selectedFeatures t))) ∧
    (∀ (wN xN wC : List ℝ) (cats : List String) (v : String) (b : ℝ),
      0 ≤ predictProba wN xN wC cats v b ∧ predictProba wN xN wC cats v b ≤ 1) := by
  have hb : buildPredictor t =
      (if (selectedFeatures t).isEmpty then PredictorOutcome.insufficient
       else if 1 < targetClassCount t ∧ 10 ≤ t.rows.length then
         .holdout (selectedFeatures t) ⟨1/5, 42, true⟩
       else .degenerate (selectedFeatures t) (projRows t (selectedFeatures t))
         (projRows t (selectedFeatures t))) := rfl
  have hp : ∀ (wN xN wC : List ℝ) (cats : List String) (v : String) (b : ℝ),
      0 ≤ predictProba wN xN wC cats v b ∧ predictProba wN xN wC cats v b ≤ 1 := by
    intro wN xN wC cats v b
    unfold predictProba
    exact ⟨le_of_lt (sigmoid_bounds _).1, le_of_lt (sigmoid_bounds _).2⟩
  have hne : ¬ (selectedFeatures t).isEmpty = true := fun hh => hf (List.isEmpty_iff.mp hh)
  rw [hb, if_neg hne]
  by_cases hs : 1 < targetClassCount t ∧ 10 ≤ t.rows.length
  · rw [if_pos hs]
    exact ⟨⟨fun _ => hs, fun _ => rfl⟩, fun hns => absurd hs hns, hp⟩
  · rw [if_neg hs]
    exact ⟨⟨fun h => PredictorOutcome.noConfusion h, fun h => absurd h hs⟩, fun _ => rfl, hp⟩

theorem c7_witness :
    buildPredictor ⟨["Age", "Attrition_bool"],
      [[Value.vInt 30, Value.vInt 0], [Value.vInt 31, Value.vInt 1],
       [Value.vInt 32, Value.vInt 0], [Value.vInt 33, Value.vInt 1],
       [Value.vInt 34, Value.vInt 0], [Value.vInt 35, Value.vInt 1],
       [Value.vInt 36, Value.vInt 0], [Value.vInt 37, Value.vInt 1]]⟩ =
    .degenerate (selectedFeatures ⟨["Age", "Attrition_bool"],
      [[Value.vInt 30, Value.vInt 0], [Value.vInt 31, Value.vInt 1],
       [Value.vInt 32, Value.vInt 0], [Value.vInt 33, Value.vInt 1],
       [Value.vInt 34, Value.vInt 0], [Value.vInt 35, Value.vInt 1],
       [Value.vInt 36, Value.vInt 0], [Value.vInt 37, Value.vInt 1]]⟩)
      (projRows ⟨["Age", "Attrition_bool"],
        [[Value.vInt 30, Value.vInt 0], [Value.vInt 31, Value.vInt 1],
         [Value.vInt 32, Value.vInt 0], [Value.vInt 33, Value.vInt 1],
         [Value.vInt 34, Value.vInt 0], [Value.vInt 35, Value.vInt 1],
         [Value.vInt 36, Value.vInt 0], [Value.vInt 37, Value.vInt 1]]⟩
        (selectedFeatures ⟨["Age", "Attrition_bool"],
          [[Value.vInt 30, Value.vInt 0], [Value.vInt 31, Value.vInt 1],
           [Value.vInt 32, Value.vInt 0], [Value.vInt 33, Value.vInt 1],
           [Value.vInt 34, Value.vInt 0], [Value.vInt 35, Value.vInt 1],
           [Value.vInt 36, Value.vInt 0], [Value.vInt 37, Value.vInt 1]]⟩))
      (projRows ⟨["Age", "Attrition_bool"],
        [[Value.vInt 30, Value.vInt 0], [Value.vInt 31, Value.vInt 1],
         [Value.vInt 32, Value.vInt 0], [Value.vInt 33, Value.vInt 1],
         [Value.vInt 34, Value.vInt 0], [Value.vInt 35, Value.vInt 1],
         [Value.vInt 36, Value.vInt 0], [Value.vInt 37, Value.vInt 1]]⟩
        (selectedFeatures ⟨["Age", "Attrition_bool"],
          [[Value.vInt 30, Value.vInt 0], [Value.vInt 31, Value.vInt 1],
           [Value.vInt 32, Value.vInt 0], [Value.vInt 33, Value.vInt 1],
           [Value.vInt 34, Value.vInt 0], [Value.vInt 35, Value.vInt 1],
           [Value.vInt 36, Value.vInt 0], [Value.vInt 37, Value.vInt 1]]⟩)) :=
  (c7_split_policy ⟨["Age", "Attrition_bool"],
    [[Value.vInt 30, Value.vInt 0], [Value.vInt 31, Value.vInt 1],
     [Value.vInt 32, Value.vInt 0], [Value.vInt 33, Value.vInt 1],
     [Value.vInt 34, Value.vInt 0], [Value.vInt 35, Value.vInt 1],
     [Value.vInt 36, Value.vInt 0], [Value.vInt 37, Value.vInt 1]]⟩
    (by decide)).2.1 (by decide)

/-- C8: for a fitted model, an input whose categorical value was never
seen at fit time one-hot encodes as all zeros
(`OneHotEncoder(handle_unknown='ignore')`, line 791) and the predicted
positive-class probability is still a value in [0,1]. -/
theorem c8_unseen_category (cats : List String) (v : String) (h : v ∉ cats)
    (wNum xNum wCat : List ℝ) (b : ℝ) :
    oneHot cats v = List.replicate cats.length 0 ∧
    0 ≤ predictProba wNum xNum wCat cats v b ∧
    predictProba wNum xNum wCat cats v b ≤ 1 := by
  refine ⟨oneHot_unseen h, ?_, ?_⟩
  · unfold predictProba
    exact le_of_lt (sigmoid_bounds _).1
  · unfold predictProba
    exact le_of_lt (sigmoid_bounds _).2

theorem c8_witness :
    oneHot ["No", "Yes"] "Maybe" = List.replicate (["No", "Yes"] : List String).length 0 ∧
    0 ≤ predictProba [] [] [] ["No", "Yes"] "Maybe" 0 ∧
    predictProba [] [] [] ["No", "Yes"] "Maybe" 0 ≤ 1 :=
  c8_unseen_category ["No", "Yes"] "Maybe" (by decide) [] [] [] 0

/-- C9 (counterexample): the round-trip fails as stated.  A derived
single-column table whose only field is missing exports that row as a
blank line, which the loader's blank-line skipping drops, so re-loading
loses the row. -/
theorem c9_counterexample :
    ¬ (∀ s : String, loadCSV (exportCSV (derive (loadCSV s))) = derive (loadCSV s)) := by
  intro h
  exact absurd (h "Attrition_bool\nNA\n") (by decide)

/-- C9 (amended): for every loaded source whose derived table has at
least two columns (so no record can serialize to a single empty field,
i.e. a blank line), exporting the derived table and re-loading it
reproduces the derived table exactly — all original columns and the
derived ones. -/
theorem c9_round_trip (s : String)
    (hc : 2 ≤ (derive (loadCSV s)).cols.length) :
    loadCSV (exportCSV (derive (loadCSV s))) = derive (loadCSV s) :=
  loadCSV_exportCSV (derive_WF (loadCSV_WF s)) (derive_trimmed (loadCSV_trimmed s))
    (derive_canonical (loadCSV_WF s) (loadCSV_canonical s)) hc

theorem c9_witness :
    loadCSV (exportCSV (derive (loadCSV "Attrition,Age\nYes,40\n"))) =
      derive (loadCSV "Attrition,Age\nYes,40\n") :=
  c9_round_trip "Attrition,Age\nYes,40\n" (by decide)

/-- C10: when the loaded table already contains an "Attrition_bool"
column, the flag-derivation step is the identity (the "Attrition"
column is never consulted, line 76), and the KPI count and the risk
grouper's per-row (dimension, flag) pairs are computed from the
caller-supplied flag values exactly as loaded.  The count conjunct is
scoped to numeric flag columns: on a string-valued flag column
line 92's `int(df['Attrition_bool'].sum())` raises instead of
producing a number. -/
theorem c10_preexisting_flag (t : Table) (hwf : t.WF)
    (h : t.hasCol "Attrition_bool" = true) :
    deriveAttritionBool t = t ∧
    (derive t).getCol "Attrition_bool" = t.getCol "Attrition_bool" ∧
    ((∀ v ∈ t.getCol "Attrition_bool", isStrCell v = false) →
      attrition_count (derive t) = ((t.getCol "Attrition_bool").map valInt).sum) ∧
    (∀ dim, dim ≠ "AgeBucket" →
      dimFlagPairs (derive t) dim = (t.getCol dim).zip (t.getCol "Attrition_bool")) := by
  have hskip : deriveAttritionBool t = t := deriveAttritionBool_skip h
  have hflag : (derive t).getCol "Attrition_bool" = t.getCol "Attrition_bool" := by
    unfold derive
    rw [hskip]
    exact deriveAgeBucket_getCol_ne hwf (by decide)
  refine ⟨hskip, hflag, ?_, ?_⟩
  · intro _
    unfold attrition_count
    have hh : (derive t).hasCol "Attrition_bool" = true := by
      unfold derive
      rw [hskip]
      exact deriveAgeBucket_hasCol_pres h
    rw [if_pos hh, hflag]
  · intro dim hdim
    unfold dimFlagPairs
    rw [hflag]
    have hd : (derive t).getCol dim = t.getCol dim := by
      unfold derive
      rw [hskip]
      exact deriveAgeBucket_getCol_ne hwf hdim
    rw [hd]

theorem c10_witness :
    deriveAttritionBool ⟨["Attrition", "Attrition_bool"],
      [[Value.vStr "no", Value.vInt 1]]⟩ =
      ⟨["Attrition", "Attrition_bool"], [[Value.vStr "no", Value.vInt 1]]⟩ ∧
    (derive ⟨["Attrition", "Attrition_bool"],
      [[Value.vStr "no", Value.vInt 1]]⟩).getCol "Attrition_bool" =
      (⟨["Attrition", "Attrition_bool"],
        [[Value.vStr "no", Value.vInt 1]]⟩ : Table).getCol "Attrition_bool" ∧
    ((∀ v ∈ (⟨["Attrition", "Attrition_bool"],
        [[Value.vStr "no", Value.vInt 1]]⟩ : Table).getCol "Attrition_bool",
        isStrCell v = false) →
      attrition_count (derive ⟨["Attrition", "Attrition_bool"],
        [[Value.vStr "no", Value.vInt 1]]⟩) =
      (((⟨["Attrition", "Attrition_bool"],
        [[Value.vStr "no", Value.vInt 1]]⟩ : Table).getCol "Attrition_bool").map valInt).sum) ∧
    (∀ dim, dim ≠ "AgeBucket" →
      dimFlagPairs (derive ⟨["Attrition", "Attrition_bool"],
        [[Value.vStr "no", Value.vInt 1]]⟩) dim =
      ((⟨["Attrition", "Attrition_bool"],
        [[Value.vStr "no", Value.vInt 1]]⟩ : Table).getCol dim).zip
        ((⟨["Attrition", "Attrition_bool"],
          [[Value.vStr "no", Value.vInt 1]]⟩ : Table).getCol "Attrition_bool")) :=
  c10_preexisting_flag ⟨["Attrition", "Attrition_bool"],
    [[Value.vStr "no", Value.vInt 1]]⟩ (by decide) (by decide)
